import Mathlib

/-!
# Directory bookmarks (`telldir.c`) and threading primitives (`thread.h`)

A shallow embedding of

* `src/newlib/libc/posix/telldir.c`: the bookmark table behind `telldir`,
  `_seekdir` and `_cleanupdir`;
* `src/winsup/cygwin/thread.h`: `fast_mutex`, the kind tags of
  `verifyable_object`, `List_insert`, `List_remove`, `List::mx_init`,
  `pthread_mutex::lock_recursive` and `pthread_rwlock::release`.

Conventions.  C integers are `Int`/`Nat` with explicit wrap-around at the
width of the C type; `int` and `long` are both 32 bits wide, as on the i686
target of these sources (`thread.h` hands an `unsigned long` to the 32-bit
`InterlockedIncrement` through a `long *`).  A linked list of `struct ddloc`
is the `List` of its nodes in link order (`loc_next` is the tail).  A pointer
to a `DIR` is a number, the stream it points to is a `DIR` value passed in and
out.  Functions that these sources call but do not define (`lseek`, `readdir`,
`free`) act on an abstract world `W` and are the fields of `Sys W`.  The
registry lists of `thread.h` are kept at pointer level: a node pointer is a
number, 0 the null pointer, and `next` maps a node to its `next` member.
Several threads at one `fast_mutex` are a list of thread positions and a
sequence of atomic steps.
-/

set_option linter.constructorNameAsVariable false

namespace Telldir

/-! ## Machine integers -/

/-- Width in bits of the C type `int`. -/
def INT_BITS : Nat := 32

/-- Width in bits of the C type `long`. -/
def LONG_BITS : Nat := 32

/-- The value of `x` after conversion to a signed two's complement type of
`bits` bits. -/
def wrapS (bits : Nat) (x : Int) : Int :=
  (x + 2 ^ (bits - 1)) % 2 ^ bits - 2 ^ (bits - 1)

/-- Conversion to `int`. -/
def toInt (x : Int) : Int := wrapS INT_BITS x

/-- Conversion to `long`. -/
def toLong (x : Int) : Int := wrapS LONG_BITS x

/-- The largest `long`. -/
def LONG_MAX : Int := 2 ^ (LONG_BITS - 1) - 1

/-- The smallest `long`. -/
def LONG_MIN : Int := -(2 ^ (LONG_BITS - 1))

/-- The values a `long` can hold. -/
def IsLong (x : Int) : Prop := LONG_MIN ≤ x ∧ x ≤ LONG_MAX

instance (x : Int) : Decidable (IsLong x) := by
  unfold IsLong
  infer_instance

/-! ## Data model -/

/-- `struct ddloc` without its link `loc_next`, which is the position in the
list. -/
structure ddloc where
  /-- key associated with structure -/
  loc_index : Int
  /-- magic cookie returned by getdirentries -/
  loc_seek : Int
  /-- offset of entry in buffer -/
  loc_loc : Int
  /-- DIR pointer -/
  loc_dirp : Nat
deriving DecidableEq, Repr

/-- The fields of a directory stream (`DIR`) that `telldir.c` reads or
writes. -/
structure DIR where
  dd_fd : Int
  dd_loc : Int
  dd_seek : Int
deriving DecidableEq, Repr

/-- `NDIRHASH`: number of hash lists, a power of 2. -/
abbrev NDIRHASH : Nat := 32

/-- The file-scope variables of `telldir.c`. -/
structure State where
  /-- `static long dd_loccnt` -/
  dd_loccnt : Int
  /-- `static struct ddloc *dd_hash[NDIRHASH]` -/
  dd_hash : Fin NDIRHASH → List ddloc

/-- The state at program start: `dd_loccnt = 1`, all hash list heads null. -/
def State.init : State := { dd_loccnt := 1, dd_hash := fun _ => [] }

/-- `LOCHASH(i)`, that is `(i)&(NDIRHASH-1)`, on the two's complement bit
pattern of `i`. -/
def LOCHASH (i : Int) : Fin NDIRHASH :=
  ⟨(i % 2 ^ LONG_BITS).toNat &&& (NDIRHASH - 1), Nat.lt_succ_of_le Nat.and_le_right⟩

/-- What `telldir.c` calls and does not define, acting on a world `W`
(descriptor offsets, directory contents, the heap). -/
structure Sys (W : Type) where
  /-- `lseek (fd, offset, whence)`, result discarded -/
  lseek : Int → Int → Int → W → W
  /-- `readdir (dirp)`: whether the result is non-null, the stream and the
  world afterwards -/
  readdir : DIR → W → Bool × DIR × W
  /-- `free (lp)` -/
  free : ddloc → W → W

/-! ## `telldir` -/

/-- `telldir (dirp)`; `d` is the stream `dirp` points to and `malloc_ok`
tells whether `malloc` returned a non-null pointer.  Returns the result and
the new state. -/
def telldir (s : State) (dirp : Nat) (d : DIR) (malloc_ok : Bool) : Int × State :=
  if malloc_ok = false then (-1, s)
  else
    let index : Int := toInt s.dd_loccnt
    let lp : ddloc :=
      { loc_index := toLong index, loc_seek := d.dd_seek, loc_loc := d.dd_loc, loc_dirp := dirp }
    (toLong index,
      { dd_loccnt := toLong (s.dd_loccnt + 1)
        dd_hash := Function.update s.dd_hash (LOCHASH index) (lp :: s.dd_hash (LOCHASH index)) })

/-! ## `_seekdir` -/

/-- The list walk of `_seekdir`, started at a list head: `none` when it ends
with `lp == NULL`, otherwise the nodes passed (those before `*prevlp`), the
node `lp` where it stopped and the list `lp->loc_next`. -/
def walk (loc : Int) : List ddloc → Option (List ddloc × ddloc × List ddloc)
  | [] => none
  | lp :: next =>
    if lp.loc_index = loc then some ([], lp, next)
    else
      match walk loc next with
      | none => none
      | some (passed, found, rest) => some (lp :: passed, found, rest)

/-- The loop `while (dirp->dd_loc < lp->loc_loc) { dp = readdir (dirp); if (dp
== NULL) break; }`, at most `fuel` calls of `readdir`; `none` when the loop
has not ended by then. -/
def readLoop {W : Type} (sys : Sys W) (loc_loc : Int) : Nat → DIR → W → Option (DIR × W)
  | 0, d, w => if d.dd_loc < loc_loc then none else some (d, w)
  | fuel + 1, d, w =>
    if d.dd_loc < loc_loc then
      match sys.readdir d w with
      | (true, d1, w1) => readLoop sys loc_loc fuel d1 w1
      | (false, d1, w1) => some (d1, w1)
    else some (d, w)

/-- `_seekdir (dirp, loc)` on the stream `d`; `none` when the `readdir` loop
has not ended within `fuel` calls. -/
def _seekdir {W : Type} (sys : Sys W) (fuel : Nat) (s : State) (d : DIR) (loc : Int) (w : W) :
    Option (State × DIR × W) :=
  if loc ≠ 0 then
    match walk loc (s.dd_hash (LOCHASH loc)) with
    | none => some (s, d, w)
    | some (passed, lp, next) =>
      let unlinked : State :=
        { s with dd_hash := Function.update s.dd_hash (LOCHASH loc) (passed ++ next) }
      if lp.loc_loc = d.dd_loc ∧ lp.loc_seek = d.dd_seek then
        some (unlinked, d, sys.free lp w)
      else
        match readLoop sys lp.loc_loc fuel
            { d with dd_seek := lp.loc_seek, dd_loc := 0 } (sys.lseek d.dd_fd lp.loc_seek 0 w) with
        | none => none
        | some (d2, w2) => some (unlinked, d2, sys.free lp w2)
  else
    some (s, { d with dd_seek := 0, dd_loc := 0 }, sys.lseek d.dd_fd 0 0 w)

/-! ## `_cleanupdir` -/

/-- The inner loop of `_cleanupdir` on one hash list: nodes of `dirp` are
unlinked and freed, the others stay. -/
def purge {W : Type} (sys : Sys W) (dirp : Nat) : List ddloc → W → List ddloc × W
  | [], w => ([], w)
  | lp :: nextlp, w =>
    if lp.loc_dirp = dirp then purge sys dirp nextlp (sys.free lp w)
    else
      let r := purge sys dirp nextlp w
      (lp :: r.1, r.2)

/-- One round of the loop `for (i = 0; i < NDIRHASH; ++i)` of
`_cleanupdir`. -/
def cleanBucket {W : Type} (sys : Sys W) (dirp : Nat) (acc : State × W) (i : Fin NDIRHASH) :
    State × W :=
  let r := purge sys dirp (acc.1.dd_hash i) acc.2
  ({ acc.1 with dd_hash := Function.update acc.1.dd_hash i r.1 }, r.2)

/-- `_cleanupdir (dirp)`. -/
def _cleanupdir {W : Type} (sys : Sys W) (s : State) (dirp : Nat) (w : W) : State × W :=
  (List.finRange NDIRHASH).foldl (cleanBucket sys dirp) (s, w)

/-! ## Sequences of calls -/

/-- A call of one of the three functions with its arguments: the stream as it
is at the time of the call, the outcome of `malloc`, the world and the
`readdir` budget. -/
inductive Call (W : Type) where
  | telldir (dirp : Nat) (d : DIR) (malloc_ok : Bool)
  | seekdir (fuel : Nat) (d : DIR) (loc : Int) (w : W)
  | cleanupdir (dirp : Nat) (w : W)

/-- The effect of one call on the table, with the token when the call is a
successful `telldir`; `none` when the call does not return. -/
def step {W : Type} (sys : Sys W) (s : State) : Call W → Option (State × Option Int)
  | .telldir dirp d malloc_ok =>
    some ((telldir s dirp d malloc_ok).2,
      if malloc_ok = true then some (telldir s dirp d malloc_ok).1 else none)
  | .seekdir fuel d loc w =>
    match _seekdir sys fuel s d loc w with
    | none => none
    | some r => some (r.1, none)
  | .cleanupdir dirp w => some ((_cleanupdir sys s dirp w).1, none)

/-- A sequence of calls: the final table and the tokens of the successful
`telldir` calls in call order; `none` when a call does not return. -/
def run {W : Type} (sys : Sys W) : State → List (Call W) → Option (State × List Int)
  | s, [] => some (s, [])
  | s, c :: cs =>
    match step sys s c with
    | none => none
    | some (s1, tok) =>
      match run sys s1 cs with
      | none => none
      | some (s2, toks) => some (s2, tok.toList ++ toks)

/-! ## Notions used in the statements -/

/-- The first node of a hash list whose key is `loc`. -/
def lookup (loc : Int) (l : List ddloc) : Option ddloc :=
  l.find? (fun e => decide (e.loc_index = loc))

/-- A hash list without its first node of key `loc`. -/
def unlinkFirst (loc : Int) (l : List ddloc) : List ddloc :=
  l.eraseP (fun e => decide (e.loc_index = loc))

/-- The table after `_seekdir (dirp, loc)` has returned: for a non-zero `loc`
the first node of key `loc` is gone from hash list `LOCHASH (loc)`. -/
def seekTable (s : State) (loc : Int) : State :=
  if loc = 0 then s
  else
    { s with
      dd_hash := Function.update s.dd_hash (LOCHASH loc)
        (unlinkFirst loc (s.dd_hash (LOCHASH loc))) }

/-- The table after `_cleanupdir (dirp)`: every hash list without the nodes
of `dirp`. -/
def cleanTable (s : State) (dirp : Nat) : State :=
  { s with dd_hash := fun i => (s.dd_hash i).filter (fun e => decide (e.loc_dirp ≠ dirp)) }

/-- The key `loc` is in the table exactly once, in hash list `LOCHASH (loc)`,
where `telldir` puts it. -/
def State.Single (s : State) (loc : Int) : Prop :=
  ∀ i, (s.dd_hash i).countP (fun e => decide (e.loc_index = loc)) =
    if i = LOCHASH loc then 1 else 0

instance (s : State) (loc : Int) : Decidable (s.Single loc) := by
  unfold State.Single
  infer_instance

/-- A call that leaves the bookmark `loc` of the stream `dirp` in the table:
any call but `_seekdir (_, loc)` and `_cleanupdir (dirp)`. -/
def Call.Keeps {W : Type} (loc : Int) (dirp : Nat) : Call W → Prop
  | .telldir _ _ _ => True
  | .seekdir _ _ loc1 _ => loc1 ≠ loc
  | .cleanupdir dirp1 _ => dirp1 ≠ dirp

instance {W : Type} (loc : Int) (dirp : Nat) (c : Call W) : Decidable (c.Keeps loc dirp) :=
  match c with
  | .telldir _ _ _ => isTrue trivial
  | .seekdir _ _ loc1 _ => inferInstanceAs (Decidable (loc1 ≠ loc))
  | .cleanupdir dirp1 _ => inferInstanceAs (Decidable (dirp1 ≠ dirp))

/-- All the nodes of the table, hash list after hash list. -/
def State.entries (s : State) : List ddloc :=
  (List.finRange NDIRHASH).flatMap s.dd_hash

/-- A hash list as `telldir` builds it while the counter, now `c`, has not
wrapped around: every key is at least 1 and below `c`, every node is in the
hash list `i` of its key, and no two nodes have the same key. -/
def BucketValid (c : Int) (i : Fin NDIRHASH) (l : List ddloc) : Prop :=
  (∀ e ∈ l, 1 ≤ e.loc_index ∧ e.loc_index < c ∧ LOCHASH e.loc_index = i) ∧
    (l.map ddloc.loc_index).Nodup

/-- A world that keeps the list of the calls made, latest first. -/
inductive Event where
  | lseek (fd offset whence : Int)
  | readdir (d : DIR)
  | free (lp : ddloc)
deriving DecidableEq, Repr

/-- The recording system over a directory whose entries all have record
length `reclen`, in one buffer of `size` bytes: `readdir` moves `dd_loc` on by
`reclen` and returns null once `dd_loc` has reached `size`. -/
def sysLog (reclen size : Int) : Sys (List Event) :=
  { lseek := fun fd offset whence w => Event.lseek fd offset whence :: w
    readdir := fun d w =>
      if d.dd_loc < size then (true, { d with dd_loc := d.dd_loc + reclen }, Event.readdir d :: w)
      else (false, d, Event.readdir d :: w)
    free := fun lp w => Event.free lp :: w }

/-- A world that records nothing. -/
def sysUnit : Sys Unit :=
  { lseek := fun _ _ _ w => w, readdir := fun d w => (false, d, w), free := fun _ w => w }

end Telldir

namespace Thread

/-! ## `thread.h` -/

/-- A `HANDLE`; 0 is the null handle. -/
abbrev HANDLE : Type := Nat

/-- Width in bits of `unsigned int` and of `unsigned long`. -/
def UNSIGNED_BITS : Nat := 32

/-- `UINT_MAX` of `<limits.h>`. -/
def UINT_MAX : Nat := 2 ^ UNSIGNED_BITS - 1

/-- The data members of `class fast_mutex`. -/
structure fast_mutex where
  /-- `unsigned long lock_counter` -/
  lock_counter : Nat
  /-- `HANDLE win32_obj_id` -/
  win32_obj_id : HANDLE
deriving DecidableEq, Repr

/-- `fast_mutex::init ()`; `CreateEvent` is the handle that `::CreateEvent`
returns, null when it fails.  Returns the result and the mutex afterwards. -/
def fast_mutex.init (_m : fast_mutex) (CreateEvent : HANDLE) : Bool × fast_mutex :=
  let m1 : fast_mutex := { lock_counter := 0, win32_obj_id := CreateEvent }
  if m1.win32_obj_id = 0 then (false, m1) else (true, m1)

/-- `InterlockedIncrement`: the incremented 32-bit value, stored and
returned. -/
def InterlockedIncrement (v : Nat) : Nat := (v + 1) % 2 ^ UNSIGNED_BITS

/-- `InterlockedDecrement`: the decremented 32-bit value, stored and
returned. -/
def InterlockedDecrement (v : Nat) : Nat := (v + 2 ^ UNSIGNED_BITS - 1) % 2 ^ UNSIGNED_BITS

/-- `fast_mutex::lock ()` up to its `if`: the mutex after the increment, and
whether the caller goes on to `cancelable_wait` on the event (`true`) or
returns at once (`false`). -/
def fast_mutex.lock (m : fast_mutex) : fast_mutex × Bool :=
  let v := InterlockedIncrement m.lock_counter
  ({ m with lock_counter := v }, decide (v ≠ 1))

/-- `fast_mutex::unlock ()`: the mutex after the decrement, and whether
`::SetEvent` is called. -/
def fast_mutex.unlock (m : fast_mutex) : fast_mutex × Bool :=
  let v := InterlockedDecrement m.lock_counter
  ({ m with lock_counter := v }, decide (v ≠ 0))

/-- How a call ends: it returns, or it reaches `api_fatal`, which ends the
process. -/
inductive Outcome (α : Type) where
  | returns (a : α)
  | api_fatal
deriving DecidableEq, Repr

/-- The data members of `class List <list_node>`: the guard mutex `mx` and
the nodes reached from `head` through `next`. -/
structure NodeList (node : Type) where
  mx : fast_mutex
  head : List node

/-- `List::mx_init ()`. -/
def NodeList.mx_init {node : Type} (l : NodeList node) (CreateEvent : HANDLE) :
    Outcome (NodeList node) :=
  let r := l.mx.init CreateEvent
  if r.1 = false then Outcome.api_fatal else Outcome.returns { l with mx := r.2 }

/-- `List::fixup_after_fork ()`. -/
def NodeList.fixup_after_fork {node : Type} (l : NodeList node) (CreateEvent : HANDLE) :
    Outcome (NodeList node) :=
  l.mx_init CreateEvent

/-- The constructor `List ()`: `head (NULL)`, then `mx_init ()` on the
default-constructed `fast_mutex`. -/
def NodeList.new (node : Type) (CreateEvent : HANDLE) : Outcome (NodeList node) :=
  NodeList.mx_init { mx := { lock_counter := 0, win32_obj_id := 0 }, head := [] } CreateEvent

/-- The data members of `class pthread_mutex`. -/
structure pthread_mutex where
  lock_counter : Nat
  win32_obj_id : HANDLE
  owner : Nat
  /-- `unsigned int recursion_counter` -/
  recursion_counter : Nat
  condwaits : Int
  type : Int
  pshared : Int
deriving DecidableEq, Repr

/-- `pthread_mutex::lock_recursive ()`; `EAGAIN` is the constant of
`<errno.h>`.  Returns the result and the mutex afterwards. -/
def pthread_mutex.lock_recursive (EAGAIN : Int) (m : pthread_mutex) : Int × pthread_mutex :=
  if m.recursion_counter = UINT_MAX then (EAGAIN, m)
  else (0, { m with recursion_counter := (m.recursion_counter + 1) % 2 ^ UNSIGNED_BITS })

/-- `struct RWLOCK_READER` without its link. -/
structure RWLOCK_READER where
  thread : Nat
  n : Nat
deriving DecidableEq, Repr

/-- The data members of `class pthread_rwlock` that `release` reads. -/
structure pthread_rwlock where
  /-- `unsigned long waiting_readers` -/
  waiting_readers : Nat
  /-- `unsigned long waiting_writers` -/
  waiting_writers : Nat
  /-- the list `readers`, null when empty -/
  readers : List RWLOCK_READER
deriving DecidableEq, Repr

/-- A call of `pthread_cond::unblock (all)` on one of the two condition
variables of a `pthread_rwlock`. -/
inductive Unblock where
  | cond_writers (all : Bool)
  | cond_readers (all : Bool)
deriving DecidableEq, Repr

/-- `pthread_rwlock::release ()`: the calls of `unblock` it makes, in
order. -/
def pthread_rwlock.release (rw : pthread_rwlock) : List Unblock :=
  if rw.waiting_writers ≠ 0 then
    if rw.readers = [] then [Unblock.cond_writers false] else []
  else if rw.waiting_readers ≠ 0 then [Unblock.cond_readers true]
  else []

/-! ### The kind tags -/

/-- Conversion to `thread_magic_t`, an `unsigned long`. -/
def toMagic (x : Nat) : Nat := x % 2 ^ UNSIGNED_BITS

/-- `PTHREAD_MAGIC`. -/
def PTHREAD_MAGIC : Nat := 0xdf0df045

/-- `PTHREAD_MUTEX_MAGIC`, that is `PTHREAD_MAGIC+1`. -/
def PTHREAD_MUTEX_MAGIC : Nat := toMagic (PTHREAD_MAGIC + 1)

/-- `PTHREAD_KEY_MAGIC`, that is `PTHREAD_MAGIC+2`. -/
def PTHREAD_KEY_MAGIC : Nat := toMagic (PTHREAD_MAGIC + 2)

/-- `PTHREAD_ATTR_MAGIC`, that is `PTHREAD_MAGIC+3`. -/
def PTHREAD_ATTR_MAGIC : Nat := toMagic (PTHREAD_MAGIC + 3)

/-- `PTHREAD_MUTEXATTR_MAGIC`, that is `PTHREAD_MAGIC+4`. -/
def PTHREAD_MUTEXATTR_MAGIC : Nat := toMagic (PTHREAD_MAGIC + 4)

/-- `PTHREAD_COND_MAGIC`, that is `PTHREAD_MAGIC+5`. -/
def PTHREAD_COND_MAGIC : Nat := toMagic (PTHREAD_MAGIC + 5)

/-- `PTHREAD_CONDATTR_MAGIC`, that is `PTHREAD_MAGIC+6`. -/
def PTHREAD_CONDATTR_MAGIC : Nat := toMagic (PTHREAD_MAGIC + 6)

/-- `SEM_MAGIC`, that is `PTHREAD_MAGIC+7`. -/
def SEM_MAGIC : Nat := toMagic (PTHREAD_MAGIC + 7)

/-- `PTHREAD_ONCE_MAGIC`, that is `PTHREAD_MAGIC+8`. -/
def PTHREAD_ONCE_MAGIC : Nat := toMagic (PTHREAD_MAGIC + 8)

/-- `PTHREAD_RWLOCK_MAGIC`, that is `PTHREAD_MAGIC+9`. -/
def PTHREAD_RWLOCK_MAGIC : Nat := toMagic (PTHREAD_MAGIC + 9)

/-- `PTHREAD_RWLOCKATTR_MAGIC`, that is `PTHREAD_MAGIC+10`. -/
def PTHREAD_RWLOCKATTR_MAGIC : Nat := toMagic (PTHREAD_MAGIC + 10)

/-- `PTHREAD_SPINLOCK_MAGIC`, that is `PTHREAD_MAGIC+11`. -/
def PTHREAD_SPINLOCK_MAGIC : Nat := toMagic (PTHREAD_MAGIC + 11)

/-- The twelve kind tags, in the order of their definitions. -/
def magics : List Nat :=
  [toMagic PTHREAD_MAGIC, PTHREAD_MUTEX_MAGIC, PTHREAD_KEY_MAGIC, PTHREAD_ATTR_MAGIC,
    PTHREAD_MUTEXATTR_MAGIC, PTHREAD_COND_MAGIC, PTHREAD_CONDATTR_MAGIC, SEM_MAGIC,
    PTHREAD_ONCE_MAGIC, PTHREAD_RWLOCK_MAGIC, PTHREAD_RWLOCKATTR_MAGIC, PTHREAD_SPINLOCK_MAGIC]

/-- The data member of `class verifyable_object`. -/
structure verifyable_object where
  /-- `thread_magic_t magic` -/
  magic : Nat
deriving DecidableEq, Repr

/-- The constructor `verifyable_object (verifyer)`. -/
def verifyable_object.new (verifyer : Nat) : verifyable_object := { magic := toMagic verifyer }

/-- The destructor `~verifyable_object ()`: the object it leaves behind. -/
def verifyable_object.destroy (_o : verifyable_object) : verifyable_object := { magic := 0 }

/-! ### `List_insert` and `List_remove` -/

/-- The head pointer of a list and the `next` members of the nodes: a node
pointer is a number, 0 is the null pointer and `next p` is `p->next`. -/
structure Links where
  head : Nat
  next : Nat → Nat

/-- `InterlockedCompareExchangePointer (&dest, exchange, comparand)` with no
other thread at work: the value of `dest` afterwards and the result, which is
the value of `dest` before. -/
def InterlockedCompareExchangePointer (dest exchange comparand : Nat) : Nat × Nat :=
  (if dest = comparand then exchange else dest, dest)

/-- The `do ... while` loop of `List_insert`, at most `fuel` rounds; `none`
when it has not ended by then. -/
def List_insert_loop (node : Nat) : Nat → Links → Option Links
  | 0, _ => none
  | fuel + 1, m =>
    let next1 := Function.update m.next node m.head
    let r := InterlockedCompareExchangePointer m.head node (next1 node)
    if r.2 ≠ next1 node then List_insert_loop node fuel { head := r.1, next := next1 }
    else some { head := r.1, next := next1 }

/-- `List_insert (head, node)` with no other thread at work. -/
def List_insert (fuel : Nat) (m : Links) (node : Nat) : Option Links :=
  if node = 0 then some m else List_insert_loop node fuel m

/-- The loop `while (cur->next && node != cur->next) cur = cur->next;` of
`List_remove`, started at `cur`: the `cur` it ends with, `none` when it has
not ended after `fuel` rounds. -/
def List_remove_walk (next : Nat → Nat) (node : Nat) : Nat → Nat → Option Nat
  | 0, cur => if next cur ≠ 0 ∧ node ≠ next cur then none else some cur
  | fuel + 1, cur =>
    if next cur ≠ 0 ∧ node ≠ next cur then List_remove_walk next node fuel (next cur)
    else some cur

/-- `List_remove (mx, head, node)` with no other thread at work, so that
`mx.lock ()` does not wait: the mutex and the list afterwards. -/
def List_remove (fuel : Nat) (mx : fast_mutex) (m : Links) (node : Nat) :
    Option (fast_mutex × Links) :=
  if node = 0 then some (mx, m)
  else
    let mx1 := mx.lock.1
    if m.head ≠ 0 then
      let r := InterlockedCompareExchangePointer m.head (m.next node) node
      if r.2 ≠ node then
        match List_remove_walk m.next node fuel r.1 with
        | none => none
        | some cur =>
          if node = m.next cur then
            some (mx1.unlock.1,
              { head := r.1, next := Function.update m.next cur (m.next (m.next cur)) })
          else some (mx1.unlock.1, { head := r.1, next := m.next })
      else some (mx1.unlock.1, { head := r.1, next := m.next })
    else some (mx1.unlock.1, m)

/-- The nodes from `p` on, following `next` up to the null pointer, are the
list `l`: the list is acyclic and `l` is its sequence of nodes. -/
def IsList (next : Nat → Nat) : Nat → List Nat → Prop
  | p, [] => p = 0
  | p, a :: l => p = a ∧ a ≠ 0 ∧ IsList next (next a) l

instance IsList.decidable (next : Nat → Nat) : (p : Nat) → (l : List Nat) →
    Decidable (IsList next p l)
  | p, [] => inferInstanceAs (Decidable (p = 0))
  | p, a :: l =>
    have := IsList.decidable next (next a) l
    inferInstanceAs (Decidable (p = a ∧ a ≠ 0 ∧ IsList next (next a) l))

/-! ### `fast_mutex` among several threads -/

/-- Where a thread stands with respect to one `fast_mutex`: outside `lock`
and `unlock`; in `lock` after an `InterlockedIncrement` whose result was not
1; after `lock` has returned; in `unlock` after an `InterlockedDecrement`
whose result was not 0 and before `::SetEvent`. -/
inductive TState where
  | idle
  | waiting
  | holding
  | signalling
deriving DecidableEq, Repr

/-- A `fast_mutex`, whether its event is set, and where each thread stands. -/
structure MutexSys where
  mx : fast_mutex
  event : Bool
  threads : List TState
deriving DecidableEq, Repr

/-- The atomic steps of thread `i`. -/
inductive Act where
  /-- the `InterlockedIncrement` of `lock` -/
  | lock (i : Nat)
  /-- the return of `cancelable_wait` in `lock` -/
  | wake (i : Nat)
  /-- `unlock` as one step: `InterlockedDecrement`, then `::SetEvent` if the
  result is not 0 -/
  | unlock (i : Nat)
  /-- the `InterlockedDecrement` of `unlock` alone -/
  | unlock_dec (i : Nat)
  /-- the `::SetEvent` of `unlock` alone -/
  | set_event (i : Nat)
deriving DecidableEq, Repr

/-- Modelled from the spec: `cancelable_wait` and the event object made by
`::CreateEvent (&sec_none_nih, false, false, NULL)` are not in these sources.
The event is auto-reset and starts clear; a thread waiting on it returns from
the wait when the event is set, and the event is clear again. -/
def MutexSys.consume_event (s : MutexSys) (i : Nat) : Option MutexSys :=
  if s.threads[i]? = some TState.waiting ∧ s.event = true then
    some { s with event := false, threads := s.threads.set i TState.holding }
  else none

/-- One atomic step; `none` when thread `i` is not in a position to take
it. -/
def MutexSys.step (s : MutexSys) : Act → Option MutexSys
  | .lock i =>
    if s.threads[i]? = some TState.idle then
      some { mx := s.mx.lock.1, event := s.event,
             threads := s.threads.set i (if s.mx.lock.2 then TState.waiting else TState.holding) }
    else none
  | .wake i => s.consume_event i
  | .unlock i =>
    if s.threads[i]? = some TState.holding then
      some { mx := s.mx.unlock.1, event := s.event || s.mx.unlock.2,
             threads := s.threads.set i TState.idle }
    else none
  | .unlock_dec i =>
    if s.threads[i]? = some TState.holding then
      some { mx := s.mx.unlock.1, event := s.event,
             threads := s.threads.set i
               (if s.mx.unlock.2 then TState.signalling else TState.idle) }
    else none
  | .set_event i =>
    if s.threads[i]? = some TState.signalling then
      some { s with event := true, threads := s.threads.set i TState.idle }
    else none

/-- A sequence of atomic steps. -/
def MutexSys.run : MutexSys → List Act → Option MutexSys
  | s, [] => some s
  | s, a :: as =>
    match s.step a with
    | none => none
    | some s1 => s1.run as

/-- The start: `lock_counter = 0`, the event clear, `n` threads, all idle. -/
def MutexSys.init (n : Nat) (win32_obj_id : HANDLE) : MutexSys :=
  { mx := { lock_counter := 0, win32_obj_id := win32_obj_id }, event := false,
    threads := List.replicate n TState.idle }

/-- What holds in every state that the threads can reach: there are fewer
than `2 ^ 32` threads, each in one of the four positions; `lock_counter` is
the number of threads waiting or holding; at most one thread is holding or
about to set the event; while the event is set nobody is holding or about to
set it, and somebody is waiting; and a thread about to set the event has
somebody waiting for it. -/
def MutexSys.Inv (s : MutexSys) : Prop :=
  s.threads.length < 2 ^ UNSIGNED_BITS ∧
    s.threads.count TState.idle + s.threads.count TState.waiting +
      s.threads.count TState.holding + s.threads.count TState.signalling = s.threads.length ∧
    s.mx.lock_counter = s.threads.count TState.waiting + s.threads.count TState.holding ∧
    s.threads.count TState.holding + s.threads.count TState.signalling ≤ 1 ∧
    (s.event = true → s.threads.count TState.holding = 0 ∧
      s.threads.count TState.signalling = 0 ∧ 1 ≤ s.threads.count TState.waiting) ∧
    (1 ≤ s.threads.count TState.signalling → 1 ≤ s.threads.count TState.waiting)

end Thread

namespace Telldir

/-! ## Machine integer lemmas -/

theorem wrapS32 (x : Int) : wrapS 32 x = (x + 2147483648) % 4294967296 - 2147483648 := by
  simp [wrapS]

theorem toInt_eq (x : Int) : toInt x = (x + 2147483648) % 4294967296 - 2147483648 := by
  simp [toInt, INT_BITS, wrapS]

theorem toLong_eq (x : Int) : toLong x = (x + 2147483648) % 4294967296 - 2147483648 := by
  simp [toLong, LONG_BITS, wrapS]

theorem isLong_iff (x : Int) : IsLong x ↔ -2147483648 ≤ x ∧ x ≤ 2147483647 := by
  simp [IsLong, LONG_MIN, LONG_MAX, LONG_BITS]

theorem isLong_toLong (x : Int) : IsLong (toLong x) := by
  rw [isLong_iff, toLong_eq]
  omega

theorem toLong_of_isLong {x : Int} (h : IsLong x) : toLong x = x := by
  rw [isLong_iff] at h
  rw [toLong_eq]
  omega

theorem toInt_of_isLong {x : Int} (h : IsLong x) : toInt x = x := by
  rw [isLong_iff] at h
  rw [toInt_eq]
  omega

theorem toLong_toInt (x : Int) : toLong (toInt x) = toInt x := by
  rw [toLong_eq, toInt_eq]
  omega

theorem toInt_toLong_add (x k : Int) : toInt (toLong x + k) = toInt (x + k) := by
  rw [toInt_eq, toInt_eq, toLong_eq]
  omega

theorem toLong_toLong_add (x k : Int) : toLong (toLong x + k) = toLong (x + k) := by
  rw [toLong_eq, toLong_eq, toLong_eq]
  omega

/-! ## Basic facts on the three functions -/

theorem telldir_fail (s : State) (dirp : Nat) (d : DIR) :
    telldir s dirp d false = (-1, s) := by
  simp [telldir]

theorem telldir_ok (s : State) (dirp : Nat) (d : DIR) :
    telldir s dirp d true =
      (toInt s.dd_loccnt,
        { dd_loccnt := toLong (s.dd_loccnt + 1)
          dd_hash := Function.update s.dd_hash (LOCHASH (toInt s.dd_loccnt))
            (⟨toInt s.dd_loccnt, d.dd_seek, d.dd_loc, dirp⟩ ::
              s.dd_hash (LOCHASH (toInt s.dd_loccnt))) }) := by
  simp [telldir, toLong_toInt]

theorem seekdir_loccnt {W : Type} (sys : Sys W) (fuel : Nat) (s : State) (d : DIR) (loc : Int)
    (w : W) (r : State × DIR × W) (h : _seekdir sys fuel s d loc w = some r) :
    r.1.dd_loccnt = s.dd_loccnt := by
  unfold _seekdir at h
  split_ifs at h with h0
  · split at h
    · cases h; rfl
    · split_ifs at h
      · cases h; rfl
      · split at h
        · cases h
        · cases h; rfl
  · cases h; rfl

theorem cleanBucket_loccnt {W : Type} (sys : Sys W) (dirp : Nat) (l : List (Fin NDIRHASH))
    (acc : State × W) :
    (l.foldl (cleanBucket sys dirp) acc).1.dd_loccnt = acc.1.dd_loccnt := by
  induction l generalizing acc with
  | nil => rfl
  | cons i l ih => rw [List.foldl_cons, ih]; rfl

theorem cleanupdir_loccnt {W : Type} (sys : Sys W) (s : State) (dirp : Nat) (w : W) :
    (_cleanupdir sys s dirp w).1.dd_loccnt = s.dd_loccnt :=
  cleanBucket_loccnt sys dirp _ (s, w)

/-! ## The list walk -/

theorem lookup_nil (loc : Int) : lookup loc [] = none := rfl

theorem lookup_cons (loc : Int) (e : ddloc) (l : List ddloc) :
    lookup loc (e :: l) = if e.loc_index = loc then some e else lookup loc l := by
  unfold lookup
  rw [List.find?_cons]
  by_cases h : e.loc_index = loc <;> simp [h]

theorem unlinkFirst_cons (loc : Int) (e : ddloc) (l : List ddloc) :
    unlinkFirst loc (e :: l) = if e.loc_index = loc then l else e :: unlinkFirst loc l := by
  unfold unlinkFirst
  rw [List.eraseP_cons]
  by_cases h : e.loc_index = loc <;> simp [h]

theorem walk_eq_none (loc : Int) (l : List ddloc) (h : walk loc l = none) :
    lookup loc l = none ∧ unlinkFirst loc l = l := by
  induction l with
  | nil => exact ⟨rfl, rfl⟩
  | cons e l ih =>
    rw [walk] at h
    split_ifs at h with he
    split at h
    · next hw =>
      rw [lookup_cons, unlinkFirst_cons, if_neg he, if_neg he, (ih hw).1, (ih hw).2]
      exact ⟨rfl, rfl⟩
    · cases h

theorem walk_eq_some (loc : Int) (l : List ddloc) (passed next : List ddloc) (lp : ddloc)
    (h : walk loc l = some (passed, lp, next)) :
    lookup loc l = some lp ∧ unlinkFirst loc l = passed ++ next ∧ l = passed ++ lp :: next ∧
      lp.loc_index = loc := by
  induction l generalizing passed with
  | nil => cases h
  | cons e l ih =>
    rw [walk] at h
    split_ifs at h with he
    · cases h
      rw [lookup_cons, unlinkFirst_cons, if_pos he, if_pos he]
      exact ⟨rfl, rfl, rfl, he⟩
    · split at h
      · cases h
      · next p f r hw =>
        cases h
        obtain ⟨h1, h2, h3, h4⟩ := ih p hw
        rw [lookup_cons, unlinkFirst_cons, if_neg he, if_neg he, h1, h2]
        exact ⟨rfl, rfl, by rw [h3]; rfl, h4⟩

theorem walk_of_lookup (loc : Int) (l : List ddloc) (lp : ddloc) (h : lookup loc l = some lp) :
    ∃ passed next, walk loc l = some (passed, lp, next) := by
  cases hw : walk loc l with
  | none =>
    rw [(walk_eq_none loc l hw).1] at h
    cases h
  | some r =>
    obtain ⟨p, f, n⟩ := r
    have := (walk_eq_some loc l p n f hw).1
    rw [h] at this
    cases this
    exact ⟨p, n, rfl⟩

theorem lookup_index (loc : Int) (l : List ddloc) (lp : ddloc) (h : lookup loc l = some lp) :
    lp.loc_index = loc ∧ lp ∈ l := by
  unfold lookup at h
  exact ⟨by simpa using List.find?_some h, List.mem_of_find?_eq_some h⟩

theorem lookup_eq_none (loc : Int) (l : List ddloc) :
    lookup loc l = none ↔ ∀ e ∈ l, e.loc_index ≠ loc := by
  unfold lookup
  simp [List.find?_eq_none]

/-! ## The table after `_seekdir` and after `_cleanupdir` -/

theorem seekTable_loccnt (s : State) (loc : Int) : (seekTable s loc).dd_loccnt = s.dd_loccnt := by
  unfold seekTable
  split_ifs <;> rfl

theorem seekTable_of_none (s : State) (loc : Int)
    (h : lookup loc (s.dd_hash (LOCHASH loc)) = none) : seekTable s loc = s := by
  unfold seekTable
  split_ifs
  · rfl
  · have : unlinkFirst loc (s.dd_hash (LOCHASH loc)) = s.dd_hash (LOCHASH loc) := by
      unfold unlinkFirst
      apply List.eraseP_of_forall_not
      intro e he
      have := (lookup_eq_none loc _).mp h e he
      simpa using this
    rw [this, Function.update_eq_self]

/-- The table that `_seekdir` leaves, when it returns. -/
theorem seekdir_table {W : Type} (sys : Sys W) (fuel : Nat) (s : State) (d : DIR) (loc : Int)
    (w : W) (r : State × DIR × W) (h : _seekdir sys fuel s d loc w = some r) :
    r.1 = seekTable s loc := by
  unfold _seekdir at h
  split_ifs at h with h0
  · split at h
    · next hw =>
      cases h
      exact (seekTable_of_none s loc (walk_eq_none loc _ hw).1).symm
    · next p lp n hw =>
      have hu := (walk_eq_some loc _ p n lp hw).2.1
      have : seekTable s loc =
          { s with dd_hash := Function.update s.dd_hash (LOCHASH loc) (p ++ n) } := by
        unfold seekTable
        rw [if_neg h0, hu]
      split_ifs at h
      · cases h; exact this.symm
      · split at h
        · cases h
        · cases h; exact this.symm
  · cases h
    have : loc = 0 := by simpa using h0
    simp [seekTable, this]

theorem purge_fst {W : Type} (sys : Sys W) (dirp : Nat) (l : List ddloc) (w : W) :
    (purge sys dirp l w).1 = l.filter (fun e => decide (e.loc_dirp ≠ dirp)) := by
  induction l generalizing w with
  | nil => rfl
  | cons e l ih =>
    rw [purge]
    split_ifs with he
    · rw [ih, List.filter_cons]
      simp [he]
    · simp only [List.filter_cons]
      rw [ih]
      simp [he]

theorem cleanBucket_hash {W : Type} (sys : Sys W) (dirp : Nat) (l : List (Fin NDIRHASH))
    (hl : l.Nodup) (acc : State × W) (i : Fin NDIRHASH) :
    (l.foldl (cleanBucket sys dirp) acc).1.dd_hash i =
      if i ∈ l then (acc.1.dd_hash i).filter (fun e => decide (e.loc_dirp ≠ dirp))
      else acc.1.dd_hash i := by
  induction l generalizing acc with
  | nil => simp
  | cons j l ih =>
    rw [List.foldl_cons, ih (List.nodup_cons.mp hl).2]
    have hj : j ∉ l := (List.nodup_cons.mp hl).1
    by_cases hij : i = j
    · subst hij
      simp [hj, cleanBucket, purge_fst]
    · simp [hij, cleanBucket, Function.update_noteq hij]

/-- The table that `_cleanupdir` leaves. -/
theorem cleanupdir_table {W : Type} (sys : Sys W) (s : State) (dirp : Nat) (w : W) :
    (_cleanupdir sys s dirp w).1 = cleanTable s dirp := by
  have h1 := cleanupdir_loccnt sys s dirp w
  have h2 : (_cleanupdir sys s dirp w).1.dd_hash = (cleanTable s dirp).dd_hash := by
    funext i
    unfold _cleanupdir
    rw [cleanBucket_hash sys dirp _ (List.nodup_finRange _) (s, w) i]
    simp [cleanTable, List.mem_finRange]
  cases hr : (_cleanupdir sys s dirp w).1 with
  | mk c hsh =>
    rw [hr] at h1 h2
    simp only at h1 h2
    subst h1 h2
    rfl

/-! ## Tokens along a sequence of calls -/

/-- One call either leaves the counter alone and issues no token, or is a
successful `telldir`: the token is the counter and the counter moves on. -/
theorem step_cases {W : Type} (sys : Sys W) (s s1 : State) (c : Call W) (tok : Option Int)
    (h : step sys s c = some (s1, tok)) :
    (tok = none ∧ s1.dd_loccnt = s.dd_loccnt) ∨
      (tok = some (toInt s.dd_loccnt) ∧ s1.dd_loccnt = toLong (s.dd_loccnt + 1)) := by
  cases c with
  | telldir dirp d malloc_ok =>
    cases malloc_ok with
    | false =>
      left
      simp only [step, telldir_fail] at h
      cases h
      exact ⟨rfl, rfl⟩
    | true =>
      right
      simp only [step, telldir_ok] at h
      cases h
      exact ⟨rfl, rfl⟩
  | seekdir fuel d loc w =>
    left
    simp only [step] at h
    split at h
    · cases h
    · next r hr =>
      cases h
      exact ⟨rfl, seekdir_loccnt sys fuel s d loc w r hr⟩
  | cleanupdir dirp w =>
    left
    simp only [step] at h
    cases h
    exact ⟨rfl, cleanupdir_loccnt sys s dirp w⟩

theorem run_cons {W : Type} (sys : Sys W) (s s2 : State) (c : Call W) (cs : List (Call W))
    (toks : List Int) (h : run sys s (c :: cs) = some (s2, toks)) :
    ∃ s1 tok toks1, step sys s c = some (s1, tok) ∧ run sys s1 cs = some (s2, toks1) ∧
      toks = tok.toList ++ toks1 := by
  simp only [run] at h
  split at h
  · cases h
  · next s1 tok hstep =>
    split at h
    · cases h
    · next s2 toks1 hrun =>
      cases h
      exact ⟨s1, tok, toks1, hstep, hrun, rfl⟩

/-- While the counter does not pass `LONG_MAX`, the tokens of a sequence of
calls are the successive values of the counter. -/
theorem run_tokens {W : Type} (sys : Sys W) (cs : List (Call W)) :
    ∀ (s s2 : State) (toks : List Int), IsLong s.dd_loccnt →
      run sys s cs = some (s2, toks) → s.dd_loccnt + toks.length ≤ LONG_MAX + 1 →
      toks = (List.range toks.length).map (fun k : Nat => s.dd_loccnt + (k : Int)) := by
  induction cs with
  | nil =>
    intro s s2 toks _ h _
    simp only [run] at h
    cases h
    rfl
  | cons c cs ih =>
    intro s s2 toks hs h hlen
    obtain ⟨s1, tok, toks1, hstep, hrun, rfl⟩ := run_cons sys s s2 c cs toks h
    rcases step_cases sys s s1 c tok hstep with ⟨rfl, hcnt⟩ | ⟨rfl, hcnt⟩
    · have := ih s1 s2 toks1 (hcnt ▸ hs) hrun (by simpa [hcnt] using hlen)
      simpa [hcnt] using this
    · have hs1 : IsLong s1.dd_loccnt := hcnt ▸ isLong_toLong _
      have hle : s1.dd_loccnt ≤ s.dd_loccnt + 1 := by
        rw [hcnt, toLong_eq]
        rw [isLong_iff] at hs
        omega
      simp only [Option.toList, List.singleton_append, List.length_cons, Nat.cast_add,
        Nat.cast_one] at hlen ⊢
      have h1 := ih s1 s2 toks1 hs1 hrun (by omega)
      rw [List.range_succ_eq_map, List.map_cons, List.map_map, toInt_of_isLong hs]
      simp only [Nat.cast_zero, add_zero, List.cons.injEq, true_and]
      rw [h1, List.length_map, List.length_range]
      apply List.map_congr_left
      intro k hk
      have hk1 : k < toks1.length := List.mem_range.mp hk
      have hmax : s.dd_loccnt + 1 ≤ LONG_MAX := by omega
      have : s1.dd_loccnt = s.dd_loccnt + 1 := by
        rw [hcnt]
        apply toLong_of_isLong
        rw [isLong_iff] at hs ⊢
        simp only [LONG_MAX, LONG_BITS] at hmax
        omega
      simp only [Function.comp, Nat.succ_eq_add_one, Nat.cast_add, Nat.cast_one, this]
      omega

/-- The tokens of `n` successful `telldir` calls in a row, wrap-around
included. -/
theorem run_replicate_telldir {W : Type} (sys : Sys W) (dirp : Nat) (d : DIR) (n : Nat) :
    ∀ s : State, ∃ s2, run sys s (List.replicate n (Call.telldir dirp d true)) =
      some (s2, (List.range n).map (fun k : Nat => toInt (s.dd_loccnt + (k : Int)))) := by
  induction n with
  | zero => intro s; exact ⟨s, rfl⟩
  | succ n ih =>
    intro s
    obtain ⟨s2, h2⟩ := ih (telldir s dirp d true).2
    refine ⟨s2, ?_⟩
    rw [List.replicate_succ]
    simp only [run, step, h2, if_true, Option.toList, List.singleton_append]
    rw [List.range_succ_eq_map, List.map_cons, List.map_map]
    simp only [telldir_ok, Nat.cast_zero, add_zero, Option.some.injEq, Prod.mk.injEq,
      List.cons.injEq, true_and]
    apply List.map_congr_left
    intro k _
    simp only [Function.comp, Nat.succ_eq_add_one, Nat.cast_add, Nat.cast_one,
      toInt_toLong_add]
    congr 1
    omega

/-- The counter after a sequence of calls: one step, wrap-around included,
for each token issued. -/
theorem run_loccnt {W : Type} (sys : Sys W) (cs : List (Call W)) :
    ∀ (s s2 : State) (toks : List Int), IsLong s.dd_loccnt →
      run sys s cs = some (s2, toks) → s2.dd_loccnt = toLong (s.dd_loccnt + toks.length) := by
  induction cs with
  | nil =>
    intro s s2 toks hs h
    simp only [run] at h
    cases h
    simpa using (toLong_of_isLong hs).symm
  | cons c cs ih =>
    intro s s2 toks hs h
    obtain ⟨s1, tok, toks1, hstep, hrun, rfl⟩ := run_cons sys s s2 c cs toks h
    rcases step_cases sys s s1 c tok hstep with ⟨rfl, hcnt⟩ | ⟨rfl, hcnt⟩
    · have := ih s1 s2 toks1 (hcnt ▸ hs) hrun
      simpa [hcnt] using this
    · have := ih s1 s2 toks1 (hcnt ▸ isLong_toLong _) hrun
      rw [this, hcnt, toLong_toLong_add]
      simp only [Option.toList, List.singleton_append, List.length_cons, Nat.cast_add,
        Nat.cast_one]
      congr 1
      omega

/-! ## A bookmark stays until it is consumed or purged -/

theorem lookup_unlinkFirst_ne (loc t : Int) (hne : loc ≠ t) (l : List ddloc) :
    lookup t (unlinkFirst loc l) = lookup t l := by
  induction l with
  | nil => rfl
  | cons x l ih =>
    rw [unlinkFirst_cons]
    split_ifs with hx
    · rw [lookup_cons, if_neg (by rw [hx]; exact hne)]
    · rw [lookup_cons, lookup_cons, ih]

theorem lookup_filter (t : Int) (keep : ddloc → Bool) (e : ddloc) (hk : keep e = true)
    (l : List ddloc) (h : lookup t l = some e) : lookup t (l.filter keep) = some e := by
  induction l with
  | nil => cases h
  | cons x l ih =>
    rw [lookup_cons] at h
    rw [List.filter_cons]
    split_ifs at h with hx
    · cases h
      rw [if_pos hk, lookup_cons, if_pos hx]
    · split_ifs
      · rw [lookup_cons, if_neg hx]
        exact ih h
      · exact ih h

/-- A call other than `_seekdir (_, t)`, `_cleanupdir` of the owner and a
`telldir` that issues `t` again leaves the first node of key `t` where it
is. -/
theorem step_keeps_lookup {W : Type} (sys : Sys W) (s s1 : State) (c : Call W)
    (tok : Option Int) (t : Int) (e : ddloc) (h : step sys s c = some (s1, tok))
    (hk : c.Keeps t e.loc_dirp) (hfresh : tok ≠ some t)
    (hl : lookup t (s.dd_hash (LOCHASH t)) = some e) :
    lookup t (s1.dd_hash (LOCHASH t)) = some e := by
  cases c with
  | telldir dirp d malloc_ok =>
    cases malloc_ok with
    | false =>
      simp only [step, telldir_fail] at h
      cases h
      exact hl
    | true =>
      simp only [step, telldir_ok] at h
      cases h
      have hne : toInt s.dd_loccnt ≠ t := fun hh => hfresh (by simp [hh])
      simp only
      by_cases hb : LOCHASH t = LOCHASH (toInt s.dd_loccnt)
      · rw [hb, Function.update_same, lookup_cons, if_neg hne, ← hb]
        exact hl
      · rw [Function.update_noteq hb]
        exact hl
  | seekdir fuel d loc w =>
    simp only [step] at h
    split at h
    · cases h
    · next r hr =>
      cases h
      rw [seekdir_table sys fuel s d loc w r hr]
      unfold seekTable
      split_ifs with h0
      · exact hl
      · simp only
        by_cases hb : LOCHASH t = LOCHASH loc
        · rw [hb, Function.update_same, ← hb, lookup_unlinkFirst_ne loc t hk]
          exact hl
        · rw [Function.update_noteq hb]
          exact hl
  | cleanupdir dirp w =>
    simp only [step] at h
    cases h
    rw [cleanupdir_table]
    simp only [cleanTable]
    apply lookup_filter t _ e _ _ hl
    have : dirp ≠ e.loc_dirp := hk
    simpa using this.symm

theorem run_keeps_lookup {W : Type} (sys : Sys W) (t : Int) (e : ddloc) (cs : List (Call W)) :
    ∀ (s s2 : State) (toks : List Int), run sys s cs = some (s2, toks) →
      (∀ c ∈ cs, c.Keeps t e.loc_dirp) → t ∉ toks →
      lookup t (s.dd_hash (LOCHASH t)) = some e →
      lookup t (s2.dd_hash (LOCHASH t)) = some e := by
  induction cs with
  | nil =>
    intro s s2 toks h _ _ hl
    simp only [run] at h
    cases h
    exact hl
  | cons c cs ih =>
    intro s s2 toks h hk hfresh hl
    obtain ⟨s1, tok, toks1, hstep, hrun, rfl⟩ := run_cons sys s s2 c cs toks h
    have h1 : tok ≠ some t := by
      intro hh
      apply hfresh
      simp [hh]
    have h2 : t ∉ toks1 := fun hh => hfresh (List.mem_append_right _ hh)
    exact ih s1 s2 toks1 hrun (fun c1 hc1 => hk c1 (List.mem_cons_of_mem _ hc1)) h2
      (step_keeps_lookup sys s s1 c tok t e hstep (hk c (List.mem_cons_self _ _)) h1 hl)

/-- The `readdir` loop of `_seekdir`, when it ends: if `readdir` leaves
`dd_seek` alone, so does the loop, and it ends with `dd_loc` at the target or
beyond, or on a null result of `readdir`. -/
theorem readLoop_spec {W : Type} (sys : Sys W)
    (hseek : ∀ d w, (sys.readdir d w).2.1.dd_seek = d.dd_seek) (target : Int) (fuel : Nat) :
    ∀ (d : DIR) (w : W) (d2 : DIR) (w2 : W), readLoop sys target fuel d w = some (d2, w2) →
      d2.dd_seek = d.dd_seek ∧
        (target ≤ d2.dd_loc ∨ ∃ d1 w1, sys.readdir d1 w1 = (false, d2, w2)) := by
  induction fuel with
  | zero =>
    intro d w d2 w2 h
    simp only [readLoop] at h
    split_ifs at h with hlt
    cases h
    exact ⟨rfl, Or.inl (not_lt.mp hlt)⟩
  | succ fuel ih =>
    intro d w d2 w2 h
    simp only [readLoop] at h
    split_ifs at h with hlt
    · split at h
      · next d1 w1 hr =>
        obtain ⟨h1, h2⟩ := ih d1 w1 d2 w2 h
        have := hseek d w
        rw [hr] at this
        exact ⟨h1.trans this, h2⟩
      · next d1 w1 hr =>
        cases h
        have := hseek d w
        rw [hr] at this
        exact ⟨this, Or.inr ⟨d, w, hr⟩⟩
    · cases h
      exact ⟨rfl, Or.inl (not_lt.mp hlt)⟩

/-! ## More on sequences of calls and on the list walk -/

theorem run_append {W : Type} (sys : Sys W) (cs1 cs2 : List (Call W)) :
    ∀ (s s1 s2 : State) (toks1 toks2 : List Int), run sys s cs1 = some (s1, toks1) →
      run sys s1 cs2 = some (s2, toks2) → run sys s (cs1 ++ cs2) = some (s2, toks1 ++ toks2) := by
  induction cs1 with
  | nil =>
    intro s s1 s2 toks1 toks2 h1 h2
    simp only [run] at h1
    cases h1
    simpa using h2
  | cons c cs1 ih =>
    intro s s1 s2 toks1 toks2 h1 h2
    obtain ⟨sa, tok, toksa, hstep, hrun, rfl⟩ := run_cons sys s s1 c cs1 toks1 h1
    have := ih sa s1 s2 toksa toks2 hrun h2
    simp only [List.cons_append, run, hstep, List.append_eq, this, List.append_assoc]

theorem run_telldir_cons {W : Type} (sys : Sys W) (s : State) (dirp : Nat) (d : DIR)
    (cs : List (Call W)) (s2 : State) (toks : List Int)
    (h : run sys (telldir s dirp d true).2 cs = some (s2, toks)) :
    run sys s (Call.telldir dirp d true :: cs) = some (s2, (telldir s dirp d true).1 :: toks) := by
  simp [run, step, h]

theorem telldir_mem (s : State) (dirp : Nat) (d : DIR) (ok : Bool) (i : Fin NDIRHASH)
    (e : ddloc) (h : e ∈ s.dd_hash i) : e ∈ (telldir s dirp d ok).2.dd_hash i := by
  cases ok with
  | false => rw [telldir_fail]; exact h
  | true =>
    rw [telldir_ok]
    simp only
    by_cases hi : i = LOCHASH (toInt s.dd_loccnt)
    · subst hi
      rw [Function.update_same]
      exact List.mem_cons_of_mem _ h
    · rw [Function.update_noteq hi]
      exact h

theorem run_replicate_telldir_mem {W : Type} (sys : Sys W) (dirp : Nat) (d : DIR)
    (i : Fin NDIRHASH) (e : ddloc) (n : Nat) :
    ∀ (s s2 : State) (toks : List Int),
      run sys s (List.replicate n (Call.telldir dirp d true)) = some (s2, toks) →
      e ∈ s.dd_hash i → e ∈ s2.dd_hash i := by
  induction n with
  | zero =>
    intro s s2 toks h he
    simp only [List.replicate_zero, run] at h
    cases h
    exact he
  | succ n ih =>
    intro s s2 toks h he
    rw [List.replicate_succ] at h
    obtain ⟨s1, tok, toks1, hstep, hrun, _⟩ := run_cons sys s s2 _ _ toks h
    simp only [step] at hstep
    cases hstep
    exact ih _ s2 toks1 hrun (telldir_mem s dirp d true i e he)

theorem walk_of_lookup_none (loc : Int) (l : List ddloc) (h : lookup loc l = none) :
    walk loc l = none := by
  cases hw : walk loc l with
  | none => rfl
  | some r =>
    obtain ⟨p, f, n⟩ := r
    rw [(walk_eq_some loc l p n f hw).1] at h
    cases h

theorem readLoop_done {W : Type} (sys : Sys W) (target : Int) (fuel : Nat) (d : DIR) (w : W)
    (h : ¬ d.dd_loc < target) : readLoop sys target fuel d w = some (d, w) := by
  cases fuel <;> simp [readLoop, h]

theorem countP_unlinkFirst (loc : Int) (l : List ddloc) :
    (unlinkFirst loc l).countP (fun e => decide (e.loc_index = loc)) =
      l.countP (fun e => decide (e.loc_index = loc)) - 1 := by
  induction l with
  | nil => rfl
  | cons x l ih =>
    rw [unlinkFirst_cons]
    split_ifs with hx
    · rw [List.countP_cons_of_pos _ _ (by simpa using hx)]
      rfl
    · rw [List.countP_cons_of_neg _ _ (by simpa using hx),
        List.countP_cons_of_neg _ _ (by simpa using hx), ih]

/-- A `_seekdir` of a non-zero `loc` that no node of hash list `LOCHASH (loc)`
has for key returns at once and changes nothing. -/
theorem seekdir_of_lookup_none {W : Type} (sys : Sys W) (fuel : Nat) (s : State) (d : DIR)
    (loc : Int) (w : W) (h0 : loc ≠ 0) (h : lookup loc (s.dd_hash (LOCHASH loc)) = none) :
    _seekdir sys fuel s d loc w = some (s, d, w) := by
  unfold _seekdir
  rw [if_pos h0, walk_of_lookup_none loc _ h]

/-! ## `_seekdir` returns when the directory is finite -/

/-- If `readdir` cannot return non-null results for ever (each non-null
result lowers a measure `mu` of the stream and the world, such as the number
of entries still to be read), the `readdir` loop ends within `mu + 1` calls. -/
theorem readLoop_returns {W : Type} (sys : Sys W) (mu : DIR → W → Nat)
    (hfin : ∀ d w, (sys.readdir d w).1 = true →
      mu (sys.readdir d w).2.1 (sys.readdir d w).2.2 < mu d w)
    (target : Int) (fuel : Nat) :
    ∀ (d : DIR) (w : W), mu d w < fuel → ∃ r, readLoop sys target fuel d w = some r := by
  induction fuel with
  | zero => intro d w h; omega
  | succ fuel ih =>
    intro d w h
    simp only [readLoop]
    split_ifs with hlt
    · split
      · next d1 w1 hr =>
        have := hfin d w (by rw [hr])
        rw [hr] at this
        exact ih d1 w1 (by simp only at this; omega)
      · exact ⟨_, rfl⟩
    · exact ⟨_, rfl⟩

/-- Under the same condition every call of `_seekdir` returns, given a
large enough `readdir` budget. -/
theorem seekdir_returns {W : Type} (sys : Sys W) (mu : DIR → W → Nat)
    (hfin : ∀ d w, (sys.readdir d w).1 = true →
      mu (sys.readdir d w).2.1 (sys.readdir d w).2.2 < mu d w)
    (s : State) (d : DIR) (loc : Int) (w : W) :
    ∃ fuel0, ∀ fuel, fuel0 ≤ fuel → ∃ r, _seekdir sys fuel s d loc w = some r := by
  by_cases h0 : loc = 0
  · exact ⟨0, fun fuel _ => by simp [_seekdir, h0]⟩
  · cases hw : walk loc (s.dd_hash (LOCHASH loc)) with
    | none => exact ⟨0, fun fuel _ => by simp [_seekdir, h0, hw]⟩
    | some x =>
      obtain ⟨p, lp, n⟩ := x
      by_cases hpos : lp.loc_loc = d.dd_loc ∧ lp.loc_seek = d.dd_seek
      · exact ⟨0, fun fuel _ => by simp [_seekdir, h0, hw, hpos]⟩
      · refine ⟨mu { d with dd_seek := lp.loc_seek, dd_loc := 0 }
          (sys.lseek d.dd_fd lp.loc_seek 0 w) + 1, fun fuel hf => ?_⟩
        obtain ⟨r, hr⟩ := readLoop_returns sys mu hfin lp.loc_loc fuel
          { d with dd_seek := lp.loc_seek, dd_loc := 0 } (sys.lseek d.dd_fd lp.loc_seek 0 w)
          (by omega)
        unfold _seekdir
        rw [if_pos h0, hw]
        simp only [if_neg hpos, hr]
        exact ⟨_, rfl⟩

/-! ## C1: tokens are issued in increasing order -/

/-- C1 (as the code behaves): in every sequence of calls from the initial
state (`dd_loccnt = 1`, empty table) in which at most `LONG_MAX` calls of
`telldir` succeed, so that no token lies past the wrap-around of the counter,
each token is greater than every earlier one and exactly one more than the
one before it, whatever `_seekdir` and `_cleanupdir` calls and failed
`telldir` calls lie in between. -/
theorem telldir_tokens_increasing {W : Type} (sys : Sys W) (cs : List (Call W)) (s : State)
    (toks : List Int) (hrun : run sys State.init cs = some (s, toks))
    (hlen : (toks.length : Int) ≤ LONG_MAX) :
    toks.Pairwise (fun a b => a < b) ∧ toks.Chain' (fun a b => b = a + 1) := by
  have h1 : IsLong State.init.dd_loccnt := by
    rw [isLong_iff]
    simp [State.init]
  have h := run_tokens sys cs State.init s toks h1 hrun (by simp only [State.init]; omega)
  rw [h]
  constructor
  · rw [List.pairwise_map]
    exact (List.pairwise_lt_range _).imp (fun hab => by simpa using hab)
  · rw [List.chain'_map]
    cases toks.length with
    | zero => simp
    | succ n =>
      rw [List.chain'_range_succ]
      intro m _
      simp only [Nat.succ_eq_add_one, Nat.cast_add, Nat.cast_one]
      omega

/-- Witness of C1: `telldir`, a failed `telldir`, `telldir`, `_seekdir` of
the first token, `_cleanupdir`, `telldir`. -/
theorem telldir_tokens_increasing_witness :
    ∃ s, run sysUnit State.init
        [Call.telldir 7 ⟨3, 4, 5⟩ true, Call.telldir 7 ⟨3, 4, 5⟩ false,
          Call.telldir 8 ⟨4, 0, 0⟩ true, Call.seekdir 3 ⟨3, 0, 0⟩ 1 (),
          Call.cleanupdir 8 (), Call.telldir 7 ⟨3, 9, 9⟩ true] = some (s, [1, 2, 3]) ∧
      List.Pairwise (fun a b : Int => a < b) [1, 2, 3] ∧
        List.Chain' (fun a b : Int => b = a + 1) [1, 2, 3] := by
  have hr : (run sysUnit State.init
        [Call.telldir 7 ⟨3, 4, 5⟩ true, Call.telldir 7 ⟨3, 4, 5⟩ false,
          Call.telldir 8 ⟨4, 0, 0⟩ true, Call.seekdir 3 ⟨3, 0, 0⟩ 1 (),
          Call.cleanupdir 8 (), Call.telldir 7 ⟨3, 9, 9⟩ true]).map Prod.snd =
      some [1, 2, 3] := by decide
  obtain ⟨⟨s, toks⟩, hs, ht⟩ := Option.map_eq_some'.mp hr
  cases ht
  exact ⟨s, hs, telldir_tokens_increasing sysUnit _ s _ hs (by decide)⟩

/-- C1 (counterexample): `2 ^ 31` successful calls of `telldir` from the
initial state.  The call number `2 ^ 31 - 1` returns `LONG_MAX` and wraps the
counter, and the next call returns `LONG_MIN`: the tokens are neither
increasing nor each one more than the one before. -/
theorem telldir_tokens_wrap :
    ∃ s toks, run sysUnit State.init
        (List.replicate (2 ^ 31) (Call.telldir 7 ⟨3, 0, 0⟩ true)) = some (s, toks) ∧
      toks[2 ^ 31 - 2]? = some 2147483647 ∧ toks[2 ^ 31 - 1]? = some (-2147483648) ∧
      ¬ toks.Pairwise (fun a b => a < b) ∧ ¬ toks.Chain' (fun a b => b = a + 1) := by
  obtain ⟨s2, h2⟩ := run_replicate_telldir sysUnit 7 ⟨3, 0, 0⟩ (2 ^ 31) State.init
  have f1 : toInt (State.init.dd_loccnt + 2147483646) = 2147483647 := by
    rw [toInt_eq]; simp [State.init]
  have f2 : toInt (State.init.dd_loccnt + 2147483647) = -2147483648 := by
    rw [toInt_eq]; simp [State.init]
  have g1 : ((List.range (2 ^ 31)).map
      (fun k : Nat => toInt (State.init.dd_loccnt + (k : Int))))[2 ^ 31 - 2]? =
      some 2147483647 := by
    rw [List.getElem?_map, List.getElem?_range (by norm_num)]
    simpa using f1
  have g2 : ((List.range (2 ^ 31)).map
      (fun k : Nat => toInt (State.init.dd_loccnt + (k : Int))))[2 ^ 31 - 1]? =
      some (-2147483648) := by
    rw [List.getElem?_map, List.getElem?_range (by norm_num)]
    simpa using f2
  refine ⟨s2, _, h2, g1, g2, ?_, ?_⟩
  · intro hp
    rw [List.pairwise_iff_getElem] at hp
    have hl : ((List.range (2 ^ 31)).map
        (fun k : Nat => toInt (State.init.dd_loccnt + (k : Int)))).length = 2 ^ 31 := by
      rw [List.length_map, List.length_range]
    have := hp (2 ^ 31 - 2) (2 ^ 31 - 1) (by rw [hl]; norm_num) (by rw [hl]; norm_num)
      (by norm_num)
    rw [List.getElem_map, List.getElem_map, List.getElem_range, List.getElem_range] at this
    norm_num at this
    rw [f1, f2] at this
    omega
  · intro hc
    rw [List.chain'_map] at hc
    have h31 : (2 : Nat) ^ 31 = Nat.succ 2147483647 := by norm_num
    rw [h31, List.chain'_range_succ] at hc
    have := hc 2147483646 (by norm_num)
    norm_num at this
    rw [f1, f2] at this
    omega

/-! ## C2: restore seeks to the saved position -/

/-- C2 (as the code behaves): let `t` be the token of a successful `telldir`
on the stream `dirp`, in any table state, and let any calls follow that do
not consume `t` (`_seekdir (_, t)`), purge it (`_cleanupdir (dirp)`) or issue
`t` again (a `telldir` after the counter has wrapped around).  If `t` is not
zero and `readdir` leaves `dd_seek` alone, then `_seekdir (_, t)`, on a
stream in whatever position, finds the node that `telldir` made, and when it
returns `dd_seek` is the value saved by `telldir`, and `dd_loc` is at least
the saved `dd_loc` or the last `readdir` returned null. -/
theorem seekdir_restores {W : Type} (sys : Sys W)
    (hseek : ∀ d w, (sys.readdir d w).2.1.dd_seek = d.dd_seek)
    (s0 : State) (dirp : Nat) (d0 : DIR) (cs : List (Call W)) (s2 : State) (toks : List Int)
    (t : Int) (ht : (telldir s0 dirp d0 true).1 = t) (ht0 : t ≠ 0)
    (hrun : run sys (telldir s0 dirp d0 true).2 cs = some (s2, toks))
    (hkeep : ∀ c ∈ cs, c.Keeps t dirp) (hfresh : t ∉ toks)
    (fuel : Nat) (d : DIR) (w : W) (r : State × DIR × W)
    (hret : _seekdir sys fuel s2 d t w = some r) :
    lookup t (s2.dd_hash (LOCHASH t)) = some ⟨t, d0.dd_seek, d0.dd_loc, dirp⟩ ∧
      r.2.1.dd_seek = d0.dd_seek ∧
      (d0.dd_loc ≤ r.2.1.dd_loc ∨ ∃ d1 w1 w2, sys.readdir d1 w1 = (false, r.2.1, w2)) := by
  have ht1 : toInt s0.dd_loccnt = t := by
    rw [telldir_ok] at ht
    exact ht
  have h0 : lookup t ((telldir s0 dirp d0 true).2.dd_hash (LOCHASH t)) =
      some ⟨t, d0.dd_seek, d0.dd_loc, dirp⟩ := by
    rw [telldir_ok]
    subst ht1
    simp only
    rw [Function.update_same, lookup_cons, if_pos rfl]
  have hl := run_keeps_lookup sys t ⟨t, d0.dd_seek, d0.dd_loc, dirp⟩ cs _ s2 toks hrun hkeep
    hfresh h0
  refine ⟨hl, ?_⟩
  obtain ⟨p, n, hw⟩ := walk_of_lookup t _ _ hl
  unfold _seekdir at hret
  rw [if_pos ht0, hw] at hret
  simp only at hret
  split_ifs at hret with hpos
  · cases hret
    exact ⟨hpos.2.symm, Or.inl (le_of_eq hpos.1)⟩
  · split at hret
    · cases hret
    · next d2 w2 hloop =>
      cases hret
      obtain ⟨h1, h2⟩ := readLoop_spec sys hseek _ fuel _ _ d2 w2 hloop
      refine ⟨h1, ?_⟩
      rcases h2 with h2 | ⟨d1, w1, h2⟩
      · exact Or.inl h2
      · exact Or.inr ⟨d1, w1, w2, h2⟩

/-- Witness of C2: bookmark at `dd_seek = 5`, `dd_loc = 4` in the initial
table, then another `telldir`, a `_seekdir` of that other token and a
`_cleanupdir` of another stream; the restore starts from position
`(dd_seek, dd_loc) = (9, 8)` and reads entries of record length 2. -/
theorem seekdir_restores_witness :
    ∃ s2 r, run (sysLog 2 100) (telldir State.init 7 ⟨3, 4, 5⟩ true).2
          [Call.telldir 8 ⟨4, 0, 0⟩ true, Call.seekdir 10 ⟨4, 6, 6⟩ 2 [],
            Call.cleanupdir 9 []] = some (s2, [2]) ∧
      _seekdir (sysLog 2 100) 10 s2 ⟨3, 8, 9⟩ 1 [] = some r ∧
      r.2 = (⟨3, 4, 5⟩, [Event.free ⟨1, 5, 4, 7⟩, Event.readdir ⟨3, 2, 5⟩,
        Event.readdir ⟨3, 0, 5⟩, Event.lseek 3 5 0]) ∧
      lookup 1 (s2.dd_hash (LOCHASH 1)) = some ⟨1, 5, 4, 7⟩ ∧ r.2.1.dd_seek = 5 ∧
      ((4 : Int) ≤ r.2.1.dd_loc ∨
        ∃ d1 w1 w2, (sysLog 2 100).readdir d1 w1 = (false, r.2.1, w2)) := by
  have hc : (run (sysLog 2 100) (telldir State.init 7 ⟨3, 4, 5⟩ true).2
      [Call.telldir 8 ⟨4, 0, 0⟩ true, Call.seekdir 10 ⟨4, 6, 6⟩ 2 [],
        Call.cleanupdir 9 []]).bind
        (fun p => (_seekdir (sysLog 2 100) 10 p.1 ⟨3, 8, 9⟩ 1 []).map
          (fun r => (p.2, r.2))) =
      some ([2], ⟨3, 4, 5⟩, [Event.free ⟨1, 5, 4, 7⟩, Event.readdir ⟨3, 2, 5⟩,
        Event.readdir ⟨3, 0, 5⟩, Event.lseek 3 5 0]) := by decide
  obtain ⟨⟨s2, toks⟩, hs, h2⟩ := Option.bind_eq_some.mp hc
  obtain ⟨r, hr, h3⟩ := Option.map_eq_some'.mp h2
  simp only [Prod.mk.injEq] at h3
  obtain ⟨rfl, h4⟩ := h3
  exact ⟨s2, r, hs, hr, h4,
    seekdir_restores (sysLog 2 100)
      (fun d w => by unfold sysLog; simp only; split_ifs <;> rfl)
      State.init 7 ⟨3, 4, 5⟩ _ s2 [2] 1 (by decide) (by decide) hs (by decide) (by decide)
      10 ⟨3, 8, 9⟩ [] r hr⟩

/-- C2 (counterexample): after `2 ^ 32 - 1` successful calls of `telldir`
from the initial state the counter is 0, so the next `telldir`, on a stream at
`dd_seek = 5`, returns the token 0, for which `_seekdir` rewinds: it looks up
nothing, leaves the table as it is and returns with `dd_seek = 0`, not 5. -/
theorem seekdir_token_zero_rewinds :
    ∃ s0 toks, run sysUnit State.init
        (List.replicate (2 ^ 32 - 1) (Call.telldir 7 ⟨3, 0, 0⟩ true)) = some (s0, toks) ∧
      (telldir s0 7 ⟨3, 4, 5⟩ true).1 = 0 ∧
      ∀ fuel, _seekdir sysUnit fuel (telldir s0 7 ⟨3, 4, 5⟩ true).2 ⟨3, 4, 5⟩
          (telldir s0 7 ⟨3, 4, 5⟩ true).1 () =
        some ((telldir s0 7 ⟨3, 4, 5⟩ true).2, ⟨3, 0, 0⟩, ()) := by
  obtain ⟨s0, h0⟩ := run_replicate_telldir sysUnit 7 ⟨3, 0, 0⟩ (2 ^ 32 - 1) State.init
  have hinit : IsLong State.init.dd_loccnt := by
    rw [isLong_iff]
    simp [State.init]
  have hcnt := run_loccnt sysUnit _ State.init s0 _ hinit h0
  rw [List.length_map, List.length_range] at hcnt
  have hz : s0.dd_loccnt = 0 := by
    rw [hcnt, toLong_eq]
    simp [State.init]
  have htok : (telldir s0 7 ⟨3, 4, 5⟩ true).1 = 0 := by
    rw [telldir_ok, hz, toInt_eq]
    simp
  refine ⟨s0, _, h0, htok, ?_⟩
  intro fuel
  rw [htok]
  simp [_seekdir, sysUnit]

/-! ## C3: tokens are single-use -/

/-- C3 (as the code behaves): in a table that holds the non-zero key `t`
exactly once, in hash list `LOCHASH (t)` (as in every table that `telldir`
built before the counter wrapped around), `_seekdir (_, t)`, when it returns,
leaves no node of key `t` in any hash list, and a second `_seekdir (_, t)`,
on a stream in whatever position, returns at once and leaves the position
(`dd_seek`, `dd_loc`), the whole table and the world unchanged. -/
theorem seekdir_single_use {W : Type} (sys : Sys W) (s : State) (t : Int) (ht0 : t ≠ 0)
    (hs : s.Single t) (fuel : Nat) (d : DIR) (w : W) (r : State × DIR × W)
    (h : _seekdir sys fuel s d t w = some r) :
    (∀ i, ∀ e ∈ r.1.dd_hash i, e.loc_index ≠ t) ∧
      ∀ (fuel2 : Nat) (d2 : DIR) (w2 : W), _seekdir sys fuel2 r.1 d2 t w2 = some (r.1, d2, w2) := by
  have hr := seekdir_table sys fuel s d t w r h
  have hnone : ∀ i, ∀ e ∈ r.1.dd_hash i, e.loc_index ≠ t := by
    intro i
    have hc : (r.1.dd_hash i).countP (fun e => decide (e.loc_index = t)) = 0 := by
      rw [hr]
      unfold seekTable
      rw [if_neg ht0]
      simp only
      by_cases hi : i = LOCHASH t
      · rw [hi, Function.update_same, countP_unlinkFirst, hs (LOCHASH t), if_pos rfl]
      · rw [Function.update_noteq hi, hs i, if_neg hi]
    intro e he
    have := List.countP_eq_zero.mp hc e he
    simpa using this
  refine ⟨hnone, ?_⟩
  intro fuel2 d2 w2
  exact seekdir_of_lookup_none sys fuel2 r.1 d2 t w2 ht0
    ((lookup_eq_none t _).mpr (hnone (LOCHASH t)))

/-- Witness of C3: the token 1 of the first `telldir`, consumed from a stream
that has moved to `(dd_seek, dd_loc) = (9, 8)`. -/
theorem seekdir_single_use_witness :
    ∃ r, _seekdir (sysLog 2 100) 10 (telldir State.init 7 ⟨3, 4, 5⟩ true).2 ⟨3, 8, 9⟩ 1 [] =
        some r ∧
      r.2.1 = ⟨3, 4, 5⟩ ∧ (∀ i, ∀ e ∈ r.1.dd_hash i, e.loc_index ≠ 1) ∧
      ∀ (fuel2 : Nat) (d2 : DIR) (w2 : List Event),
        _seekdir (sysLog 2 100) fuel2 r.1 d2 1 w2 = some (r.1, d2, w2) := by
  have hc : (_seekdir (sysLog 2 100) 10 (telldir State.init 7 ⟨3, 4, 5⟩ true).2 ⟨3, 8, 9⟩ 1
      []).map (fun r => r.2.1) = some ⟨3, 4, 5⟩ := by decide
  obtain ⟨r, hr, h1⟩ := Option.map_eq_some'.mp hc
  exact ⟨r, hr, h1,
    seekdir_single_use (sysLog 2 100) (telldir State.init 7 ⟨3, 4, 5⟩ true).2 1 (by decide)
      (by decide) 10 ⟨3, 8, 9⟩ [] r hr⟩

/-- C3 (counterexample): `telldir` on a stream at `dd_seek = 5` issues the
token 1; `2 ^ 32 - 1` more calls of `telldir` bring the counter back to 1 and
the next `telldir` issues the token 1 again.  The table now holds the key 1
twice: `_seekdir (_, 1)` unlinks the newer node and the older one, of
`dd_seek = 5`, is still in the table, so that a second `_seekdir (_, 1)` does
change the table. -/
theorem seekdir_token_reissued :
    ∃ s toks, run sysUnit State.init
        (Call.telldir 7 ⟨3, 0, 5⟩ true ::
          (List.replicate (2 ^ 32 - 1) (Call.telldir 8 ⟨4, 0, 0⟩ true) ++
            [Call.telldir 7 ⟨3, 0, 9⟩ true])) = some (s, toks) ∧
      toks.head? = some 1 ∧ toks.getLast? = some 1 ∧
      ∀ (fuel : Nat) (d : DIR), ∃ r, _seekdir sysUnit fuel s d 1 () = some r ∧
        (⟨1, 5, 0, 7⟩ : ddloc) ∈ r.1.dd_hash (LOCHASH 1) ∧
        ∀ (fuel2 : Nat) (d2 : DIR) (r2 : State × DIR × Unit),
          _seekdir sysUnit fuel2 r.1 d2 1 () = some r2 → r2.1.dd_hash ≠ r.1.dd_hash := by
  -- the first call
  have hs1 : (telldir State.init 7 ⟨3, 0, 5⟩ true).1 = 1 := by
    rw [telldir_ok, toInt_eq]
    simp [State.init]
  have hc1 : (telldir State.init 7 ⟨3, 0, 5⟩ true).2.dd_loccnt = 2 := by
    rw [telldir_ok, toLong_eq]
    simp [State.init]
  have hm1 : (⟨1, 5, 0, 7⟩ : ddloc) ∈
      (telldir State.init 7 ⟨3, 0, 5⟩ true).2.dd_hash (LOCHASH 1) := by
    rw [telldir_ok, toInt_eq]
    simp [State.init]
  -- the calls that wrap the counter
  obtain ⟨s2, h2a⟩ := run_replicate_telldir sysUnit 8 ⟨4, 0, 0⟩ (2 ^ 32 - 1)
    (telldir State.init 7 ⟨3, 0, 5⟩ true).2
  obtain ⟨mid, h2, hlen⟩ : ∃ mid, run sysUnit (telldir State.init 7 ⟨3, 0, 5⟩ true).2
      (List.replicate (2 ^ 32 - 1) (Call.telldir 8 ⟨4, 0, 0⟩ true)) = some (s2, mid) ∧
      mid.length = 2 ^ 32 - 1 := ⟨_, h2a, by rw [List.length_map, List.length_range]⟩
  have hl1 : IsLong (telldir State.init 7 ⟨3, 0, 5⟩ true).2.dd_loccnt := by
    rw [hc1, isLong_iff]
    omega
  have hc2 : s2.dd_loccnt = 1 := by
    rw [run_loccnt sysUnit _ _ s2 _ hl1 h2, hlen, hc1, toLong_eq]
    simp
  have hm2 := run_replicate_telldir_mem sysUnit 8 ⟨4, 0, 0⟩ (LOCHASH 1) ⟨1, 5, 0, 7⟩ _ _ s2 _
    h2 hm1
  -- the call that issues 1 again
  have ht3 : toInt s2.dd_loccnt = 1 := by
    rw [hc2, toInt_eq]
    simp
  have h3 : run sysUnit s2 [Call.telldir 7 ⟨3, 0, 9⟩ true] =
      some ((telldir s2 7 ⟨3, 0, 9⟩ true).2, [1]) := by
    simp [run, step, telldir_ok, ht3]
  have h23 := run_append sysUnit _ _ _ s2 _ _ _ h2 h3
  have hb3 : (telldir s2 7 ⟨3, 0, 9⟩ true).2.dd_hash (LOCHASH 1) =
      ⟨1, 9, 0, 7⟩ :: s2.dd_hash (LOCHASH 1) := by
    rw [telldir_ok, ht3]
    simp only
    rw [Function.update_same]
  refine ⟨(telldir s2 7 ⟨3, 0, 9⟩ true).2, 1 :: (mid ++ [1]), ?_, rfl, ?_, ?_⟩
  · rw [run_telldir_cons sysUnit _ _ _ _ _ _ h23, hs1]
  · rw [← List.cons_append, List.getLast?_append]
    rfl
  · intro fuel d
    have hw : walk 1 ((telldir s2 7 ⟨3, 0, 9⟩ true).2.dd_hash (LOCHASH 1)) =
        some ([], ⟨1, 9, 0, 7⟩, s2.dd_hash (LOCHASH 1)) := by
      rw [hb3]
      simp [walk]
    have hex : ∃ r, _seekdir sysUnit fuel (telldir s2 7 ⟨3, 0, 9⟩ true).2 d 1 () = some r := by
      unfold _seekdir
      rw [if_pos (by decide), hw]
      simp only
      split_ifs
      · exact ⟨_, rfl⟩
      · rw [readLoop_done sysUnit _ fuel _ _ (by simp)]
        exact ⟨_, rfl⟩
    obtain ⟨r, hr⟩ := hex
    have hr1 := seekdir_table sysUnit fuel _ d 1 () r hr
    have hbr : r.1.dd_hash (LOCHASH 1) = s2.dd_hash (LOCHASH 1) := by
      rw [hr1]
      unfold seekTable
      rw [if_neg (by decide)]
      simp only
      rw [Function.update_same, hb3, unlinkFirst_cons, if_pos rfl]
    refine ⟨r, hr, by rw [hbr]; exact hm2, ?_⟩
    intro fuel2 d2 r2 hr2 heq
    have h4 := seekdir_table sysUnit fuel2 r.1 d2 1 () r2 hr2
    have h5 : r2.1.dd_hash (LOCHASH 1) = unlinkFirst 1 (r.1.dd_hash (LOCHASH 1)) := by
      rw [h4]
      unfold seekTable
      rw [if_neg (by decide)]
      simp only
      rw [Function.update_same]
    rw [heq, hbr] at h5
    have h6 := congrArg List.length h5
    unfold unlinkFirst at h6
    rw [List.length_eraseP_of_mem hm2 (by simp)] at h6
    have : 0 < (s2.dd_hash (LOCHASH 1)).length := List.length_pos_of_mem hm2
    omega

/-! ## C4: `_cleanupdir` purges the bookmarks of a stream -/

/-- C4: for every table state and every stream `dirp`, after
`_cleanupdir (dirp)` no hash list of the `NDIRHASH = 32` holds a node whose
`loc_dirp` is `dirp`. -/
theorem cleanupdir_purges {W : Type} (sys : Sys W) (s : State) (dirp : Nat) (w : W)
    (i : Fin NDIRHASH) (e : ddloc) (he : e ∈ (_cleanupdir sys s dirp w).1.dd_hash i) :
    e.loc_dirp ≠ dirp := by
  rw [cleanupdir_table] at he
  simp only [cleanTable, List.mem_filter, decide_eq_true_eq] at he
  exact he.2

/-- Witness of C4: two bookmarks of the stream 7 and one of the stream 8;
after `_cleanupdir (7)` the node of the stream 8 is the only one left. -/
theorem cleanupdir_purges_witness :
    (⟨2, 0, 6, 8⟩ : ddloc) ∈
        (_cleanupdir (sysLog 2 100)
          (telldir (telldir (telldir State.init 7 ⟨3, 4, 5⟩ true).2 8 ⟨4, 6, 0⟩ true).2
            7 ⟨3, 8, 9⟩ true).2 7 []).1.dd_hash (LOCHASH 2) ∧
      (⟨2, 0, 6, 8⟩ : ddloc).loc_dirp ≠ 7 :=
  ⟨by decide,
    cleanupdir_purges (sysLog 2 100)
      (telldir (telldir (telldir State.init 7 ⟨3, 4, 5⟩ true).2 8 ⟨4, 6, 0⟩ true).2
        7 ⟨3, 8, 9⟩ true).2 7 [] (LOCHASH 2) ⟨2, 0, 6, 8⟩ (by decide)⟩

/-! ## C5 and C6: the token 0 means rewind -/

/-- C5: for every stream and every table state, `_seekdir (dirp, 0)` returns
(whatever the `readdir` budget), having called `lseek (dirp->dd_fd, 0, 0)` and
nothing else, with `dd_seek = 0` and `dd_loc = 0`; the stream and the world it
leaves do not depend on the table. -/
theorem seekdir_zero_rewinds {W : Type} (sys : Sys W) (fuel : Nat) (s : State) (d : DIR)
    (w : W) :
    (_seekdir sys fuel s d 0 w).map Prod.snd =
      some ({ dd_fd := d.dd_fd, dd_loc := 0, dd_seek := 0 }, sys.lseek d.dd_fd 0 0 w) := by
  simp [_seekdir]

/-- C6: for every table state and stream, `_seekdir (dirp, 0)` returns a
table identical to the one it was given, the counter `dd_loccnt` and each of
the 32 hash lists, and the only call it makes is the `lseek`: no node is
unlinked or freed. -/
theorem seekdir_zero_table {W : Type} (sys : Sys W) (fuel : Nat) (s : State) (d : DIR)
    (w : W) :
    ∃ r, _seekdir sys fuel s d 0 w = some r ∧ r.1 = s ∧ r.1.dd_loccnt = s.dd_loccnt ∧
      (∀ i, r.1.dd_hash i = s.dd_hash i) ∧ r.2.2 = sys.lseek d.dd_fd 0 0 w :=
  ⟨(s, { d with dd_seek := 0, dd_loc := 0 }, sys.lseek d.dd_fd 0 0 w), by simp [_seekdir],
    rfl, rfl, fun _ => rfl, rfl⟩

/-! ## More on hash lists -/

theorem LOCHASH_val (i : Int) : (((LOCHASH i).val : Nat) : Int) = i % 32 := by
  have h1 : (LOCHASH i).val = (i % 2 ^ LONG_BITS).toNat % 2 ^ 5 := by
    simp only [LOCHASH, NDIRHASH]
    exact Nat.and_pow_two_sub_one_eq_mod _ 5
  have h2 : (0 : Int) ≤ i % 2 ^ LONG_BITS := Int.emod_nonneg _ (by simp [LONG_BITS])
  rw [h1, Int.natCast_mod, Int.toNat_of_nonneg h2]
  simp only [LONG_BITS]
  norm_num

theorem walk_passed (loc : Int) (l : List ddloc) (passed next : List ddloc) (lp : ddloc)
    (h : walk loc l = some (passed, lp, next)) : ∀ e ∈ passed, e.loc_index ≠ loc := by
  induction l generalizing passed with
  | nil => cases h
  | cons x l ih =>
    rw [walk] at h
    split_ifs at h with hx
    · cases h
      simp
    · split at h
      · cases h
      · next p f r hw =>
        cases h
        intro e he
        rcases List.mem_cons.mp he with rfl | he
        · exact hx
        · exact ih p hw e he

theorem purge_of_none {W : Type} (sys : Sys W) (dirp : Nat) (l : List ddloc) (w : W)
    (h : ∀ e ∈ l, e.loc_dirp ≠ dirp) : purge sys dirp l w = (l, w) := by
  induction l generalizing w with
  | nil => rfl
  | cons x l ih =>
    rw [purge, if_neg (h x (List.mem_cons_self _ _))]
    simp only [ih w (fun e he => h e (List.mem_cons_of_mem _ he))]

theorem cleanBucket_of_none {W : Type} (sys : Sys W) (dirp : Nat) (l : List (Fin NDIRHASH))
    (acc : State × W) (h : ∀ i, ∀ e ∈ acc.1.dd_hash i, e.loc_dirp ≠ dirp) :
    l.foldl (cleanBucket sys dirp) acc = acc := by
  induction l with
  | nil => rfl
  | cons i l ih =>
    have : cleanBucket sys dirp acc i = acc := by
      unfold cleanBucket
      simp only [purge_of_none sys dirp _ _ (h i), Function.update_eq_self]
    rw [List.foldl_cons, this, ih]

/-- On a table without nodes of `dirp`, `_cleanupdir (dirp)` changes nothing
and frees nothing. -/
theorem cleanupdir_of_none {W : Type} (sys : Sys W) (s : State) (dirp : Nat) (w : W)
    (h : ∀ i, ∀ e ∈ s.dd_hash i, e.loc_dirp ≠ dirp) : _cleanupdir sys s dirp w = (s, w) :=
  cleanBucket_of_none sys dirp _ (s, w) h

/-! ## C15: what `telldir` records -/

/-- C15 (as the code behaves): a successful `telldir` on the stream `dirp`,
in a table whose counter is a `long` below `LONG_MAX`, returns the counter as
the token `t`; hash list `LOCHASH (t)` is afterwards the old list with one new
node at its front holding `loc_index = t`, `loc_seek = dd_seek`,
`loc_loc = dd_loc` and `loc_dirp = dirp`; the other 31 hash lists are
unchanged, and `dd_loccnt` has grown by exactly one.  (`telldir` has the
stream for input only: it assigns to no field of it.) -/
theorem telldir_records (s : State) (dirp : Nat) (d : DIR) (hs : IsLong s.dd_loccnt)
    (hmax : s.dd_loccnt < LONG_MAX) :
    (telldir s dirp d true).1 = s.dd_loccnt ∧
      (telldir s dirp d true).2.dd_hash (LOCHASH (telldir s dirp d true).1) =
        ⟨(telldir s dirp d true).1, d.dd_seek, d.dd_loc, dirp⟩ ::
          s.dd_hash (LOCHASH (telldir s dirp d true).1) ∧
      (∀ i, i ≠ LOCHASH (telldir s dirp d true).1 →
        (telldir s dirp d true).2.dd_hash i = s.dd_hash i) ∧
      (telldir s dirp d true).2.dd_loccnt = s.dd_loccnt + 1 := by
  rw [telldir_ok]
  simp only
  refine ⟨toInt_of_isLong hs, by rw [Function.update_same], ?_, ?_⟩
  · intro i hi
    rw [Function.update_noteq hi]
  · apply toLong_of_isLong
    rw [isLong_iff] at hs ⊢
    simp only [LONG_MAX, LONG_BITS] at hmax
    omega

/-- Witness of C15: the third `telldir` of a program, on a stream at
`(dd_seek, dd_loc) = (9, 8)`. -/
theorem telldir_records_witness :
    (telldir (telldir (telldir State.init 7 ⟨3, 4, 5⟩ true).2 8 ⟨4, 6, 0⟩ true).2
        7 ⟨3, 8, 9⟩ true).1 = 3 ∧
      (telldir (telldir (telldir State.init 7 ⟨3, 4, 5⟩ true).2 8 ⟨4, 6, 0⟩ true).2
        7 ⟨3, 8, 9⟩ true).2.dd_hash (LOCHASH 3) = [⟨3, 9, 8, 7⟩] ∧
      (telldir (telldir (telldir State.init 7 ⟨3, 4, 5⟩ true).2 8 ⟨4, 6, 0⟩ true).2
        7 ⟨3, 8, 9⟩ true).2.dd_loccnt = 4 := by
  have h := telldir_records (telldir (telldir State.init 7 ⟨3, 4, 5⟩ true).2 8 ⟨4, 6, 0⟩ true).2
    7 ⟨3, 8, 9⟩ (by decide) (by decide)
  have hc : (telldir (telldir State.init 7 ⟨3, 4, 5⟩ true).2 8 ⟨4, 6, 0⟩ true).2.dd_loccnt = 3 := by
    decide
  have hb : (telldir (telldir State.init 7 ⟨3, 4, 5⟩ true).2 8 ⟨4, 6, 0⟩ true).2.dd_hash
      (LOCHASH 3) = [] := by decide
  obtain ⟨h1, h2, _, h4⟩ := h
  rw [hc] at h1 h4
  rw [h1] at h2
  rw [hb] at h2
  exact ⟨h1, h2, h4⟩

/-- C15 (counterexample): after `2 ^ 31 - 2` successful calls of `telldir`
from the initial state the counter is `LONG_MAX`; the next `telldir` returns
2147483647 and leaves the counter at -2147483648, not at 2147483648. -/
theorem telldir_counter_wraps :
    ∃ s toks, run sysUnit State.init
        (List.replicate (2 ^ 31 - 2) (Call.telldir 7 ⟨3, 0, 0⟩ true)) = some (s, toks) ∧
      s.dd_loccnt = 2147483647 ∧ (telldir s 7 ⟨3, 4, 5⟩ true).1 = 2147483647 ∧
      (telldir s 7 ⟨3, 4, 5⟩ true).2.dd_loccnt = -2147483648 := by
  obtain ⟨s, h0⟩ := run_replicate_telldir sysUnit 7 ⟨3, 0, 0⟩ (2 ^ 31 - 2) State.init
  have hinit : IsLong State.init.dd_loccnt := by
    rw [isLong_iff]
    simp [State.init]
  have hcnt := run_loccnt sysUnit _ State.init s _ hinit h0
  rw [List.length_map, List.length_range] at hcnt
  have hz : s.dd_loccnt = 2147483647 := by
    rw [hcnt, toLong_eq]
    simp [State.init]
  refine ⟨s, _, h0, hz, ?_, ?_⟩
  · rw [telldir_ok, hz, toInt_eq]
    simp
  · rw [telldir_ok, hz, toLong_eq]
    simp

/-! ## C17: `_seekdir` consumes one bookmark and leaves the others -/

/-- C17: for every table state and every non-zero token `t` that a node of
hash list `LOCHASH (t)` has for key, `_seekdir (_, t)`, when it returns,
leaves `dd_loccnt` and the 31 other hash lists unchanged, and hash list
`LOCHASH (t)` is the old list without the first node of key `t`: the nodes
before it and after it stay, in their order. -/
theorem seekdir_frame {W : Type} (sys : Sys W) (fuel : Nat) (s : State) (d : DIR) (t : Int)
    (w : W) (r : State × DIR × W) (ht0 : t ≠ 0)
    (hfound : ∃ e ∈ s.dd_hash (LOCHASH t), e.loc_index = t)
    (h : _seekdir sys fuel s d t w = some r) :
    r.1.dd_loccnt = s.dd_loccnt ∧ (∀ i, i ≠ LOCHASH t → r.1.dd_hash i = s.dd_hash i) ∧
      ∃ passed lp next, s.dd_hash (LOCHASH t) = passed ++ lp :: next ∧ lp.loc_index = t ∧
        (∀ e ∈ passed, e.loc_index ≠ t) ∧ r.1.dd_hash (LOCHASH t) = passed ++ next := by
  have hr := seekdir_table sys fuel s d t w r h
  refine ⟨by rw [hr, seekTable_loccnt], ?_, ?_⟩
  · intro i hi
    rw [hr]
    unfold seekTable
    rw [if_neg ht0]
    simp only
    rw [Function.update_noteq hi]
  · cases hw : walk t (s.dd_hash (LOCHASH t)) with
    | none =>
      obtain ⟨e, he, het⟩ := hfound
      exact absurd het ((lookup_eq_none t _).mp (walk_eq_none t _ hw).1 e he)
    | some x =>
      obtain ⟨p, lp, n⟩ := x
      obtain ⟨_, h2, h3, h4⟩ := walk_eq_some t _ p n lp hw
      refine ⟨p, lp, n, h3, h4, walk_passed t _ p n lp hw, ?_⟩
      rw [hr]
      unfold seekTable
      rw [if_neg ht0]
      simp only
      rw [Function.update_same, h2]

/-- Witness of C17: three bookmarks with the keys 1, 33 and 65 in hash list
1; `_seekdir (_, 33)` unlinks the middle one. -/
theorem seekdir_frame_witness :
    ∃ r, _seekdir (sysLog 2 100) 10
        { dd_loccnt := 66, dd_hash := fun i =>
            if i = 1 then [⟨65, 0, 0, 7⟩, ⟨33, 5, 4, 8⟩, ⟨1, 0, 0, 7⟩] else [] }
        ⟨3, 8, 9⟩ 33 [] = some r ∧
      r.1.dd_loccnt = 66 ∧ r.1.dd_hash 1 = [⟨65, 0, 0, 7⟩, ⟨1, 0, 0, 7⟩] := by
  have hc : (_seekdir (sysLog 2 100) 10
      { dd_loccnt := 66, dd_hash := fun i =>
          if i = 1 then [⟨65, 0, 0, 7⟩, ⟨33, 5, 4, 8⟩, ⟨1, 0, 0, 7⟩] else [] }
      ⟨3, 8, 9⟩ 33 []).map (fun r => r.1.dd_hash 1) =
      some [⟨65, 0, 0, 7⟩, ⟨1, 0, 0, 7⟩] := by decide
  obtain ⟨r, hr, h1⟩ := Option.map_eq_some'.mp hc
  exact ⟨r, hr,
    (seekdir_frame (sysLog 2 100) 10 _ ⟨3, 8, 9⟩ 33 [] r (by decide)
      ⟨⟨33, 5, 4, 8⟩, by decide, rfl⟩ hr).1, h1⟩

/-! ## C18: `_cleanupdir` removes the bookmarks of one stream only -/

/-- C18: for every table state and stream `dirp`, each hash list after
`_cleanupdir (dirp)` is the old list filtered to the nodes whose `loc_dirp` is
not `dirp`, in their order and as they were, and `dd_loccnt` is unchanged;
hence a second `_cleanupdir (dirp)` changes nothing and frees nothing, and
`_cleanupdir (dirp)` changes nothing and frees nothing on a table without
nodes of `dirp`. -/
theorem cleanupdir_frame {W : Type} (sys : Sys W) (s : State) (dirp : Nat) (w : W) :
    (∀ i, (_cleanupdir sys s dirp w).1.dd_hash i =
        (s.dd_hash i).filter (fun e => decide (e.loc_dirp ≠ dirp))) ∧
      (_cleanupdir sys s dirp w).1.dd_loccnt = s.dd_loccnt ∧
      (∀ w2, _cleanupdir sys (_cleanupdir sys s dirp w).1 dirp w2 =
        ((_cleanupdir sys s dirp w).1, w2)) ∧
      ((∀ i, ∀ e ∈ s.dd_hash i, e.loc_dirp ≠ dirp) → _cleanupdir sys s dirp w = (s, w)) := by
  refine ⟨?_, cleanupdir_loccnt sys s dirp w, ?_, cleanupdir_of_none sys s dirp w⟩
  · intro i
    rw [cleanupdir_table]
    rfl
  · intro w2
    apply cleanupdir_of_none
    intro i e he
    rw [cleanupdir_table] at he
    simp only [cleanTable, List.mem_filter, decide_eq_true_eq] at he
    exact he.2

/-! ## C19: a token that is not in the table -/

/-- C19: for every non-zero `loc`, negative values included, the index
`LOCHASH (loc)` is `loc` modulo 32, a number from 0 to 31, and if no node of
that hash list has the key `loc` then `_seekdir (_, loc)` returns at once,
whatever the `readdir` budget, with the stream, the whole table and the world
unchanged: it calls neither `lseek` nor `readdir` nor `free`. -/
theorem seekdir_unknown_token {W : Type} (sys : Sys W) (fuel : Nat) (s : State) (d : DIR)
    (loc : Int) (w : W) (h0 : loc ≠ 0)
    (hnone : ∀ e ∈ s.dd_hash (LOCHASH loc), e.loc_index ≠ loc) :
    (((LOCHASH loc).val : Nat) : Int) = loc % 32 ∧ (LOCHASH loc).val < 32 ∧
      _seekdir sys fuel s d loc w = some (s, d, w) :=
  ⟨LOCHASH_val loc, (LOCHASH loc).isLt,
    seekdir_of_lookup_none sys fuel s d loc w h0 ((lookup_eq_none loc _).mpr hnone)⟩

/-- Witness of C19: `_seekdir (_, -1)`, the failure value of `telldir`, on a
table with a bookmark of key 31 in hash list 31. -/
theorem seekdir_unknown_token_witness :
    (((LOCHASH (-1)).val : Nat) : Int) = 31 ∧
      _seekdir (sysLog 2 100) 0
          { dd_loccnt := 32, dd_hash := fun i => if i = 31 then [⟨31, 5, 4, 7⟩] else [] }
          ⟨3, 8, 9⟩ (-1) [] =
        some ({ dd_loccnt := 32, dd_hash := fun i => if i = 31 then [⟨31, 5, 4, 7⟩] else [] },
          ⟨3, 8, 9⟩, []) := by
  have h := seekdir_unknown_token (sysLog 2 100) 0
    { dd_loccnt := 32, dd_hash := fun i => if i = 31 then [⟨31, 5, 4, 7⟩] else [] }
    ⟨3, 8, 9⟩ (-1) [] (by decide) (by decide)
  exact ⟨by decide, h.2.2⟩

/-! ## C20: live tokens are valid and unique -/

theorem bucketValid_sublist (c : Int) (i : Fin NDIRHASH) (l l2 : List ddloc)
    (h : l2.Sublist l) (hv : BucketValid c i l) : BucketValid c i l2 :=
  ⟨fun e he => hv.1 e (h.subset he), (h.map ddloc.loc_index).nodup hv.2⟩

theorem bucketValid_mono (c c2 : Int) (hc : c ≤ c2) (i : Fin NDIRHASH) (l : List ddloc)
    (hv : BucketValid c i l) : BucketValid c2 i l :=
  ⟨fun e he => ⟨(hv.1 e he).1, lt_of_lt_of_le (hv.1 e he).2.1 hc, (hv.1 e he).2.2⟩, hv.2⟩

/-- One call keeps the hash lists valid, as long as a successful `telldir`
finds the counter below `LONG_MAX`. -/
theorem step_valid {W : Type} (sys : Sys W) (s s1 : State) (c : Call W) (tok : Option Int)
    (h : step sys s c = some (s1, tok)) (hs : IsLong s.dd_loccnt) (h1 : 1 ≤ s.dd_loccnt)
    (hv : ∀ i, BucketValid s.dd_loccnt i (s.dd_hash i))
    (hmax : tok ≠ none → s.dd_loccnt < LONG_MAX) :
    ∀ i, BucketValid s1.dd_loccnt i (s1.dd_hash i) := by
  cases c with
  | telldir dirp d malloc_ok =>
    cases malloc_ok with
    | false =>
      simp only [step, telldir_fail] at h
      cases h
      exact hv
    | true =>
      simp only [step, telldir_ok] at h
      cases h
      have hlt := hmax (by simp)
      have hc1 : toLong (s.dd_loccnt + 1) = s.dd_loccnt + 1 := by
        apply toLong_of_isLong
        rw [isLong_iff] at hs ⊢
        simp only [LONG_MAX, LONG_BITS] at hlt
        omega
      intro i
      simp only [hc1]
      by_cases hi : i = LOCHASH (toInt s.dd_loccnt)
      · subst hi
        rw [Function.update_same, toInt_of_isLong hs]
        have hold := hv (LOCHASH s.dd_loccnt)
        refine ⟨?_, ?_⟩
        · intro e he
          rcases List.mem_cons.mp he with rfl | he
          · exact ⟨h1, by simp, rfl⟩
          · exact ⟨(hold.1 e he).1, by have := (hold.1 e he).2.1; omega, (hold.1 e he).2.2⟩
        · rw [List.map_cons, List.nodup_cons]
          refine ⟨?_, hold.2⟩
          intro hmem
          obtain ⟨e, he, hidx⟩ := List.mem_map.mp hmem
          have := (hold.1 e he).2.1
          simp only at hidx
          omega
      · rw [Function.update_noteq hi]
        exact bucketValid_mono _ _ (by omega) i _ (hv i)
  | seekdir fuel d loc w =>
    simp only [step] at h
    split at h
    · cases h
    · next r hr =>
      cases h
      intro i
      rw [seekdir_table sys fuel s d loc w r hr, seekTable_loccnt]
      unfold seekTable
      split_ifs with h0
      · exact hv i
      · simp only
        by_cases hi : i = LOCHASH loc
        · subst hi
          rw [Function.update_same]
          exact bucketValid_sublist _ _ _ _ (List.eraseP_sublist _) (hv _)
        · rw [Function.update_noteq hi]
          exact hv i
  | cleanupdir dirp w =>
    simp only [step] at h
    cases h
    intro i
    rw [cleanupdir_table]
    exact bucketValid_sublist _ _ _ _ (List.filter_sublist _) (hv i)

/-- A sequence of calls keeps the hash lists valid and moves the counter on by
the number of tokens issued, as long as the counter does not pass
`LONG_MAX`. -/
theorem run_valid {W : Type} (sys : Sys W) (cs : List (Call W)) :
    ∀ (s s2 : State) (toks : List Int), IsLong s.dd_loccnt → 1 ≤ s.dd_loccnt →
      (∀ i, BucketValid s.dd_loccnt i (s.dd_hash i)) →
      run sys s cs = some (s2, toks) → s.dd_loccnt + toks.length ≤ LONG_MAX →
      s2.dd_loccnt = s.dd_loccnt + toks.length ∧
        ∀ i, BucketValid s2.dd_loccnt i (s2.dd_hash i) := by
  induction cs with
  | nil =>
    intro s s2 toks _ _ hv h _
    simp only [run] at h
    cases h
    exact ⟨by simp, hv⟩
  | cons c cs ih =>
    intro s s2 toks hs h1 hv h hlen
    obtain ⟨s1, tok, toks1, hstep, hrun, rfl⟩ := run_cons sys s s2 c cs toks h
    rcases step_cases sys s s1 c tok hstep with ⟨rfl, hcnt⟩ | ⟨rfl, hcnt⟩
    · have hv1 := step_valid sys s s1 c none hstep hs h1 hv (fun hh => absurd rfl hh)
      have := ih s1 s2 toks1 (hcnt ▸ hs) (hcnt ▸ h1) hv1 hrun (by simpa [hcnt] using hlen)
      simpa [hcnt] using this
    · simp only [Option.toList, List.singleton_append, List.length_cons, Nat.cast_add,
        Nat.cast_one] at hlen ⊢
      have hlt : s.dd_loccnt < LONG_MAX := by omega
      have hv1 := step_valid sys s s1 c _ hstep hs h1 hv (fun _ => hlt)
      have hc1 : s1.dd_loccnt = s.dd_loccnt + 1 := by
        rw [hcnt]
        apply toLong_of_isLong
        rw [isLong_iff] at hs ⊢
        simp only [LONG_MAX, LONG_BITS] at hlt
        omega
      have hs1 : IsLong s1.dd_loccnt := hcnt ▸ isLong_toLong _
      obtain ⟨h2, h3⟩ := ih s1 s2 toks1 hs1 (by omega) hv1 hrun (by omega)
      exact ⟨by omega, h3⟩

/-- In a table with valid hash lists no two nodes have the same key. -/
theorem entries_nodup (s : State) (hv : ∀ i, BucketValid s.dd_loccnt i (s.dd_hash i)) :
    (s.entries.map ddloc.loc_index).Nodup := by
  unfold State.entries
  rw [List.map_flatMap, List.nodup_flatMap]
  refine ⟨fun i _ => (hv i).2, ?_⟩
  refine (List.nodup_finRange NDIRHASH).imp ?_
  intro i j hij x hx1 hx2
  obtain ⟨e1, he1, rfl⟩ := List.mem_map.mp hx1
  obtain ⟨e2, he2, h2⟩ := List.mem_map.mp hx2
  apply hij
  rw [← ((hv i).1 e1 he1).2.2, ← ((hv j).1 e2 he2).2.2, h2]

/-- C20: in every state reached from the initial state (`dd_loccnt = 1`,
empty table) by calls of `telldir`, `_seekdir` and `_cleanupdir`, as long as
the counter has not overflowed (fewer than `LONG_MAX` tokens issued, so that
`dd_loccnt` is one more than their number), every node of the table has
`1 <= loc_index < dd_loccnt` and is in hash list `LOCHASH (loc_index)`, no two
nodes of the table have the same `loc_index`, and every token issued is at
least 1, so never 0. -/
theorem table_valid {W : Type} (sys : Sys W) (cs : List (Call W)) (s : State)
    (toks : List Int) (hrun : run sys State.init cs = some (s, toks))
    (hlen : (toks.length : Int) < LONG_MAX) :
    s.dd_loccnt = 1 + toks.length ∧
      (∀ i, ∀ e ∈ s.dd_hash i,
        1 ≤ e.loc_index ∧ e.loc_index < s.dd_loccnt ∧ LOCHASH e.loc_index = i) ∧
      (s.entries.map ddloc.loc_index).Nodup ∧ ∀ t ∈ toks, 1 ≤ t ∧ t ≠ 0 := by
  have hi : IsLong State.init.dd_loccnt := by
    rw [isLong_iff]
    simp [State.init]
  have hv0 : ∀ i, BucketValid State.init.dd_loccnt i (State.init.dd_hash i) := by
    intro i
    simp [BucketValid, State.init]
  obtain ⟨h1, h2⟩ := run_valid sys cs State.init s toks hi (by simp [State.init]) hv0 hrun
    (by simp only [State.init]; omega)
  have h3 := run_tokens sys cs State.init s toks hi hrun (by simp only [State.init]; omega)
  refine ⟨by simpa [State.init] using h1, fun i => (h2 i).1, entries_nodup s h2, ?_⟩
  intro t ht
  rw [h3] at ht
  obtain ⟨k, _, rfl⟩ := List.mem_map.mp ht
  simp only [State.init]
  omega

/-- Witness of C20: three bookmarks, of which one is consumed and one is
purged with its stream. -/
theorem table_valid_witness :
    ∃ s, run sysUnit State.init
        [Call.telldir 7 ⟨3, 4, 5⟩ true, Call.telldir 7 ⟨3, 4, 5⟩ false,
          Call.telldir 8 ⟨4, 0, 0⟩ true, Call.seekdir 3 ⟨3, 0, 0⟩ 1 (),
          Call.cleanupdir 8 (), Call.telldir 7 ⟨3, 9, 9⟩ true] = some (s, [1, 2, 3]) ∧
      s.dd_loccnt = 4 ∧ (s.entries.map ddloc.loc_index).Nodup := by
  have hr : (run sysUnit State.init
        [Call.telldir 7 ⟨3, 4, 5⟩ true, Call.telldir 7 ⟨3, 4, 5⟩ false,
          Call.telldir 8 ⟨4, 0, 0⟩ true, Call.seekdir 3 ⟨3, 0, 0⟩ 1 (),
          Call.cleanupdir 8 (), Call.telldir 7 ⟨3, 9, 9⟩ true]).map Prod.snd =
      some [1, 2, 3] := by decide
  obtain ⟨⟨s, toks⟩, hs, ht⟩ := Option.map_eq_some'.mp hr
  cases ht
  have h := table_valid sysUnit _ s _ hs (by decide)
  exact ⟨s, hs, by simpa using h.1, h.2.2.1⟩

/-! ## C21: `_seekdir` does not look at the owner of a node -/

/-- C21: there are a table state `s`, two distinct streams `dirp1` and
`dirp2` (on different descriptors, at different positions) and a non-zero
token `t` returned by `telldir (dirp1)` such that `_seekdir (dirp2, t)` finds
the node that `telldir` made for `dirp1`, calls `lseek` on the descriptor of
`dirp2` with the `dd_seek` saved from `dirp1`, returns with `dirp2` at the
`dd_seek` and `dd_loc` saved from `dirp1`, frees the node and leaves the table
as it was before the `telldir` (the bookmark of `dirp2` itself is still
there), with no node of key `t`; after that `_seekdir (_, t)` on any stream,
`dirp1` included, returns at once and changes neither the table nor the
stream nor the world.  Here `s` is the initial table after one `telldir
(dirp2)`, and `readdir` moves `dd_loc` on by 2. -/
theorem seekdir_ignores_owner :
    ∃ (s : State) (dirp1 dirp2 : Nat) (d1 d2 : DIR) (t : Int) (r : State × DIR × List Event),
      dirp1 ≠ dirp2 ∧ d1.dd_fd ≠ d2.dd_fd ∧ d1.dd_seek ≠ d2.dd_seek ∧
      (telldir s dirp1 d1 true).1 = t ∧ t ≠ 0 ∧
      lookup t ((telldir s dirp1 d1 true).2.dd_hash (LOCHASH t)) =
        some ⟨t, d1.dd_seek, d1.dd_loc, dirp1⟩ ∧
      _seekdir (sysLog 2 100) 10 (telldir s dirp1 d1 true).2 d2 t [] = some r ∧
      r.2.1 = ⟨d2.dd_fd, d1.dd_loc, d1.dd_seek⟩ ∧
      r.2.2 = [Event.free ⟨t, d1.dd_seek, d1.dd_loc, dirp1⟩,
        Event.readdir ⟨d2.dd_fd, 2, d1.dd_seek⟩, Event.readdir ⟨d2.dd_fd, 0, d1.dd_seek⟩,
        Event.lseek d2.dd_fd d1.dd_seek 0] ∧
      (∀ i, r.1.dd_hash i = s.dd_hash i) ∧
      (∃ e ∈ r.1.dd_hash (LOCHASH 1), e.loc_dirp = dirp2) ∧
      (∀ i, ∀ e ∈ r.1.dd_hash i, e.loc_index ≠ t) ∧
      ∀ (fuel2 : Nat) (d : DIR) (w2 : List Event),
        _seekdir (sysLog 2 100) fuel2 r.1 d t w2 = some (r.1, d, w2) := by
  have hc : (_seekdir (sysLog 2 100) 10
      (telldir (telldir State.init 8 ⟨4, 2, 6⟩ true).2 7 ⟨3, 4, 5⟩ true).2 ⟨4, 8, 9⟩ 2 []).map
        (fun r => r.2) =
      some (⟨4, 4, 5⟩, [Event.free ⟨2, 5, 4, 7⟩, Event.readdir ⟨4, 2, 5⟩,
        Event.readdir ⟨4, 0, 5⟩, Event.lseek 4 5 0]) := by decide
  obtain ⟨r, hr, h1⟩ := Option.map_eq_some'.mp hc
  have ht := seekdir_table _ _ _ _ _ _ r hr
  have hsame : ∀ i, (seekTable (telldir (telldir State.init 8 ⟨4, 2, 6⟩ true).2 7 ⟨3, 4, 5⟩
      true).2 2).dd_hash i = (telldir State.init 8 ⟨4, 2, 6⟩ true).2.dd_hash i := by decide
  have hown : ∃ e ∈ (seekTable (telldir (telldir State.init 8 ⟨4, 2, 6⟩ true).2 7 ⟨3, 4, 5⟩
      true).2 2).dd_hash (LOCHASH 1), e.loc_dirp = 8 := by decide
  have hgone : ∀ i, ∀ e ∈ (seekTable (telldir (telldir State.init 8 ⟨4, 2, 6⟩ true).2 7
      ⟨3, 4, 5⟩ true).2 2).dd_hash i, e.loc_index ≠ 2 := by decide
  rw [← ht] at hsame hown hgone
  refine ⟨(telldir State.init 8 ⟨4, 2, 6⟩ true).2, 7, 8, ⟨3, 4, 5⟩, ⟨4, 8, 9⟩, 2, r,
    by decide, by decide, by decide, by decide, by decide, by decide, hr, ?_, ?_, hsame, hown,
    hgone, ?_⟩
  · rw [h1]
  · rw [h1]
  · intro fuel2 d w2
    exact seekdir_of_lookup_none (sysLog 2 100) fuel2 r.1 d 2 w2 (by decide)
      ((lookup_eq_none 2 _).mpr (hgone (LOCHASH 2)))

/-! ## C22: a failed `telldir` changes nothing -/

/-- C22: when `malloc` returns null, `telldir` returns -1 and leaves the
table as it is: `dd_loccnt` and each of the 32 hash lists are unchanged (the
stream is only an argument: `telldir` writes no member of it).  The failed
call issues no token and skips none: a sequence of calls with the failed call
in front runs as the sequence without it, and the next successful `telldir`
returns the token, and leaves the table, that it would have without the
failed call. -/
theorem telldir_fails_atomically {W : Type} (sys : Sys W) (s : State) (dirp : Nat) (d : DIR) :
    (telldir s dirp d false).1 = -1 ∧
      (telldir s dirp d false).2.dd_loccnt = s.dd_loccnt ∧
      (∀ i : Fin 32, (telldir s dirp d false).2.dd_hash i = s.dd_hash i) ∧
      (telldir s dirp d false).2 = s ∧
      step sys s (Call.telldir dirp d false) = some (s, none) ∧
      (∀ cs, run sys s (Call.telldir dirp d false :: cs) = run sys s cs) ∧
      ∀ dirp2 d2, telldir (telldir s dirp d false).2 dirp2 d2 true = telldir s dirp2 d2 true := by
  have hstep : step sys s (Call.telldir dirp d false) = some (s, none) := by
    simp [step, telldir_fail]
  refine ⟨by rw [telldir_fail], by rw [telldir_fail], fun i => by rw [telldir_fail],
    by rw [telldir_fail], hstep, ?_, fun dirp2 d2 => by rw [telldir_fail]⟩
  intro cs
  rw [run, hstep]
  simp only
  cases run sys s cs with
  | none => rfl
  | some p => simp

end Telldir

namespace Thread

/-! ## C7: the wake-up rule of `pthread_rwlock::release` -/

/-- C7 (as the code behaves): with writers waiting and no reader left,
`release` calls `cond_writers.unblock (false)` and nothing else; with no
writer waiting and readers waiting, it calls `cond_readers.unblock (true)` and
nothing else; with writers waiting while readers still hold the lock, and with
nobody waiting, it calls neither. -/
theorem release_rule (rw : pthread_rwlock) :
    (0 < rw.waiting_writers ∧ rw.readers = [] → rw.release = [Unblock.cond_writers false]) ∧
      (rw.waiting_writers = 0 ∧ 0 < rw.waiting_readers →
        rw.release = [Unblock.cond_readers true]) ∧
      (0 < rw.waiting_writers ∧ rw.readers ≠ [] → rw.release = []) ∧
      (rw.waiting_writers = 0 ∧ rw.waiting_readers = 0 → rw.release = []) := by
  refine ⟨?_, ?_, ?_, ?_⟩
  · rintro ⟨h1, h2⟩
    simp [pthread_rwlock.release, Nat.pos_iff_ne_zero.mp h1, h2]
  · rintro ⟨h1, h2⟩
    simp [pthread_rwlock.release, h1, Nat.pos_iff_ne_zero.mp h2]
  · rintro ⟨h1, h2⟩
    simp [pthread_rwlock.release, Nat.pos_iff_ne_zero.mp h1, h2]
  · rintro ⟨h1, h2⟩
    simp [pthread_rwlock.release, h1, h2]

/-- C7 (counterexample): one writer and two readers wait while a reader still
holds the lock.  This is not the case "writers waiting and reader list empty",
yet `release` does not call `cond_readers.unblock (true)`: it wakes nobody.
Nor does it when nobody waits. -/
theorem release_wakes_nobody :
    (pthread_rwlock.release
        { waiting_readers := 2, waiting_writers := 1, readers := [{ thread := 5, n := 1 }] } =
      [] ∧
      Unblock.cond_readers true ∉ pthread_rwlock.release
        { waiting_readers := 2, waiting_writers := 1, readers := [{ thread := 5, n := 1 }] }) ∧
    (pthread_rwlock.release { waiting_readers := 0, waiting_writers := 0, readers := [] } = [] ∧
      Unblock.cond_readers true ∉ pthread_rwlock.release
        { waiting_readers := 0, waiting_writers := 0, readers := [] }) :=
  ⟨⟨by decide, by decide⟩, ⟨by decide, by decide⟩⟩

/-! ## C8: saturation of the recursion counter -/

/-- C8: for every value of the `unsigned int recursion_counter`,
`lock_recursive` returns `EAGAIN` and leaves the mutex as it is when the
counter is `UINT_MAX`, and otherwise returns 0 with the counter one higher,
without wrap-around and so never 0; it returns `EAGAIN` with the counter
unchanged exactly when the counter is `UINT_MAX`. -/
theorem lock_recursive_saturates (EAGAIN : Int) (m : pthread_mutex)
    (hm : m.recursion_counter ≤ UINT_MAX) :
    (m.recursion_counter = UINT_MAX → m.lock_recursive EAGAIN = (EAGAIN, m)) ∧
      (m.recursion_counter ≠ UINT_MAX →
        m.lock_recursive EAGAIN =
            (0, { m with recursion_counter := m.recursion_counter + 1 }) ∧
          m.recursion_counter + 1 ≤ UINT_MAX ∧
          (m.lock_recursive EAGAIN).2.recursion_counter ≠ 0) ∧
      (((m.lock_recursive EAGAIN).1 = EAGAIN ∧
          (m.lock_recursive EAGAIN).2.recursion_counter = m.recursion_counter) ↔
        m.recursion_counter = UINT_MAX) ∧
      (EAGAIN ≠ 0 → ((m.lock_recursive EAGAIN).1 = EAGAIN ↔ m.recursion_counter = UINT_MAX)) := by
  have hU : UINT_MAX = 4294967295 := by simp [UINT_MAX, UNSIGNED_BITS]
  have hB : (2 : Nat) ^ UNSIGNED_BITS = 4294967296 := by simp [UNSIGNED_BITS]
  by_cases h : m.recursion_counter = UINT_MAX
  · simp [pthread_mutex.lock_recursive, h]
  · have hlt : m.recursion_counter + 1 < 4294967296 := by omega
    have hmod : (m.recursion_counter + 1) % 2 ^ UNSIGNED_BITS = m.recursion_counter + 1 := by
      rw [hB]
      exact Nat.mod_eq_of_lt hlt
    have hr : m.lock_recursive EAGAIN =
        (0, { m with recursion_counter := m.recursion_counter + 1 }) := by
      simp only [pthread_mutex.lock_recursive, if_neg h, hmod]
    rw [hr]
    refine ⟨fun h1 => absurd h1 h, fun _ => ⟨rfl, by omega, by simp⟩, ?_, ?_⟩
    · simp [h]
    · intro h0
      simp only [h, iff_false]
      exact fun h1 => h0 h1.symm

/-- Witness of C8: a mutex whose counter is `UINT_MAX`, with `EAGAIN = 11`. -/
theorem lock_recursive_saturates_witness :
    pthread_mutex.lock_recursive 11
        { lock_counter := 1, win32_obj_id := 8, owner := 4, recursion_counter := 4294967295,
          condwaits := 0, type := 1, pshared := 0 } =
      (11,
        { lock_counter := 1, win32_obj_id := 8, owner := 4, recursion_counter := 4294967295,
          condwaits := 0, type := 1, pshared := 0 }) :=
  (lock_recursive_saturates 11
    { lock_counter := 1, win32_obj_id := 8, owner := 4, recursion_counter := 4294967295,
      condwaits := 0, type := 1, pshared := 0 } (by decide)).1 (by decide)

/-! ## C9 and C10: the guard mutex of a registry -/

/-- C9: whatever `lock_counter` the guard mutex had (left by a holder or by
waiters in the parent), when `List::fixup_after_fork` returns the mutex has
`lock_counter = 0`, so that the next `fast_mutex::lock` raises it to 1 and
returns without waiting on the event; the list itself is untouched. -/
theorem fixup_after_fork_unlocks {node : Type} (l l2 : NodeList node) (CreateEvent : HANDLE)
    (h : l.fixup_after_fork CreateEvent = Outcome.returns l2) :
    l2.mx.lock_counter = 0 ∧ l2.mx.lock = ({ l2.mx with lock_counter := 1 }, false) ∧
      l2.head = l.head := by
  by_cases h0 : CreateEvent = 0
  · simp [NodeList.fixup_after_fork, NodeList.mx_init, fast_mutex.init, h0] at h
  · simp only [NodeList.fixup_after_fork, NodeList.mx_init, fast_mutex.init, if_neg h0,
      Bool.true_eq_false, if_false, Outcome.returns.injEq] at h
    subst h
    simp [fast_mutex.lock, InterlockedIncrement, UNSIGNED_BITS]

/-- Witness of C9: the parent left `lock_counter = 3`, one holder and two
waiters; `CreateEvent` returns the handle 42. -/
theorem fixup_after_fork_unlocks_witness :
    NodeList.fixup_after_fork
        ({ mx := { lock_counter := 3, win32_obj_id := 17 }, head := [1, 2] } : NodeList Nat) 42 =
      Outcome.returns { mx := { lock_counter := 0, win32_obj_id := 42 }, head := [1, 2] } ∧
    fast_mutex.lock { lock_counter := 0, win32_obj_id := 42 } =
      ({ lock_counter := 1, win32_obj_id := 42 }, false) :=
  ⟨rfl, (@fixup_after_fork_unlocks Nat
    { mx := { lock_counter := 3, win32_obj_id := 17 }, head := [1, 2] }
    { mx := { lock_counter := 0, win32_obj_id := 42 }, head := [1, 2] } 42 rfl).2.1⟩

/-- C10: `List::mx_init`, and so the `List` constructor and
`List::fixup_after_fork`, reaches `api_fatal` if and only if
`fast_mutex::init` returns false, which it does if and only if `CreateEvent`
returns the null handle; otherwise it returns with `lock_counter = 0` and the
non-null event handle, the list untouched. -/
theorem mx_init_fatal_iff {node : Type} (l : NodeList node) (CreateEvent : HANDLE) :
    (l.mx_init CreateEvent = Outcome.api_fatal ↔ (l.mx.init CreateEvent).1 = false) ∧
      ((l.mx.init CreateEvent).1 = false ↔ CreateEvent = 0) ∧
      (CreateEvent ≠ 0 →
        l.mx_init CreateEvent =
          Outcome.returns { mx := { lock_counter := 0, win32_obj_id := CreateEvent },
                            head := l.head }) ∧
      (l.fixup_after_fork CreateEvent = Outcome.api_fatal ↔ CreateEvent = 0) ∧
      (NodeList.new node CreateEvent = Outcome.api_fatal ↔ CreateEvent = 0) := by
  by_cases h : CreateEvent = 0
  · simp [NodeList.new, NodeList.fixup_after_fork, NodeList.mx_init, fast_mutex.init, h]
  · simp [NodeList.new, NodeList.fixup_after_fork, NodeList.mx_init, fast_mutex.init, h]

/-! ## C14: writer preference of `pthread_rwlock::release` -/

/-- C14: for every state with `waiting_writers > 0`, `release` makes no call
of `cond_readers.unblock`, whatever `waiting_readers` is; in every state it
makes at most one call of `unblock`, and none when writers wait while readers
still hold the lock or when nobody waits. -/
theorem release_writer_preference (rw : pthread_rwlock) :
    (0 < rw.waiting_writers → ∀ all, Unblock.cond_readers all ∉ rw.release) ∧
      rw.release.length ≤ 1 ∧
      (0 < rw.waiting_writers ∧ rw.readers ≠ [] → rw.release = []) ∧
      (rw.waiting_writers = 0 ∧ rw.waiting_readers = 0 → rw.release = []) := by
  unfold pthread_rwlock.release
  refine ⟨?_, ?_, ?_, ?_⟩
  · intro h all
    rw [if_pos (Nat.pos_iff_ne_zero.mp h)]
    split_ifs <;> simp
  · split_ifs <;> simp
  · rintro ⟨h1, h2⟩
    rw [if_pos (Nat.pos_iff_ne_zero.mp h1), if_neg h2]
  · rintro ⟨h1, h2⟩
    simp [h1, h2]

/-! ## C16: the kind tags -/

/-- C16: the twelve tags `PTHREAD_MAGIC` to `PTHREAD_SPINLOCK_MAGIC` are
`0xdf0df045 + k` for `k = 0..11`, without wrap-around in `unsigned long`; they
are pairwise distinct, and each differs from 0, the value that the destructor
of `verifyable_object` writes into `magic`: the tag of a destroyed object is
the tag of no kind, whereas a constructed object carries its tag as given. -/
theorem magics_distinct (o : verifyable_object) :
    magics = (List.range 12).map (fun k => 0xdf0df045 + k) ∧ magics.Nodup ∧
      (∀ m ∈ magics, m ≠ 0 ∧ m ≠ o.destroy.magic ∧ (verifyable_object.new m).magic = m) := by
  refine ⟨by decide, by decide, ?_⟩
  have h : ∀ m ∈ magics, m ≠ 0 ∧ (verifyable_object.new m).magic = m := by decide
  intro m hm
  exact ⟨(h m hm).1, (h m hm).1, (h m hm).2⟩

/-! ## Linked lists of nodes -/

theorem isList_nonzero (next : Nat → Nat) (l : List Nat) :
    ∀ p, IsList next p l → 0 ∉ l := by
  induction l with
  | nil => intro p _; simp
  | cons a l ih =>
    intro p h
    obtain ⟨_, ha, hl⟩ := h
    intro hmem
    rcases List.mem_cons.mp hmem with h0 | h0
    · exact ha h0.symm
    · exact ih _ hl h0

theorem isList_head_eq (n1 n2 : Nat → Nat) (l : List Nat) (p1 p2 : Nat)
    (h1 : IsList n1 p1 l) (h2 : IsList n2 p2 l) : p1 = p2 := by
  cases l with
  | nil =>
    have a : p1 = 0 := h1
    have b : p2 = 0 := h2
    rw [a, b]
  | cons a l => rw [h1.1, h2.1]

theorem isList_unique (next : Nat → Nat) (l1 : List Nat) :
    ∀ (l2 : List Nat) (p : Nat), IsList next p l1 → IsList next p l2 → l1 = l2 := by
  induction l1 with
  | nil =>
    intro l2 p h1 h2
    cases l2 with
    | nil => rfl
    | cons b l2 =>
      have hp : p = 0 := h1
      exact absurd (h2.1 ▸ hp) h2.2.1
  | cons a l1 ih =>
    intro l2 p h1 h2
    cases l2 with
    | nil =>
      have hp : p = 0 := h2
      exact absurd (h1.1 ▸ hp) h1.2.1
    | cons b l2 =>
      have hab : a = b := h1.1.symm.trans h2.1
      subst hab
      rw [ih l2 _ h1.2.2 h2.2.2]

theorem isList_suffix (next : Nat → Nat) (a : Nat) (l2 : List Nat) (l1 : List Nat) :
    ∀ p, IsList next p (l1 ++ a :: l2) → IsList next (next a) l2 := by
  induction l1 with
  | nil => intro p h; exact h.2.2
  | cons x l1 ih => intro p h; exact ih _ h.2.2

/-- The nodes of an acyclic list are pairwise distinct. -/
theorem isList_nodup (next : Nat → Nat) (l : List Nat) : ∀ p, IsList next p l → l.Nodup := by
  induction l with
  | nil => intro p _; exact List.nodup_nil
  | cons a l ih =>
    intro p h
    refine List.nodup_cons.mpr ⟨?_, ih _ h.2.2⟩
    intro hmem
    obtain ⟨l1, l2, hl⟩ := List.append_of_mem hmem
    have h2 : IsList next (next a) l2 := isList_suffix next a l2 l1 (next a) (hl ▸ h.2.2)
    have := isList_unique next l l2 (next a) h.2.2 h2
    have hlen := congrArg List.length (hl.symm.trans this)
    simp at hlen
    omega

/-- Writing the `next` member of a node that is not in the list leaves the
list as it is. -/
theorem isList_update (next : Nat → Nat) (c v : Nat) (l : List Nat) :
    ∀ p, c ∉ l → IsList next p l → IsList (Function.update next c v) p l := by
  induction l with
  | nil => intro p _ h; exact h
  | cons a l ih =>
    intro p hc h
    obtain ⟨hp, ha, hl⟩ := h
    have hac : a ≠ c := fun hh => hc (by simp [hh])
    refine ⟨hp, ha, ?_⟩
    rw [Function.update_noteq hac]
    exact ih _ (fun hh => hc (List.mem_cons_of_mem _ hh)) hl

/-- The walk of `List_remove` along a list that does not start with `node`:
it ends, within as many rounds as the list has further nodes, at the node
before `node`, or at the last node when `node` is not in the list. -/
theorem List_remove_walk_spec (next : Nat → Nat) (node : Nat) (hn : node ≠ 0) :
    ∀ (rest : List Nat) (cur fuel : Nat), IsList next cur (cur :: rest) → (cur :: rest).Nodup →
      node ≠ cur → rest.length ≤ fuel →
      ∃ c, List_remove_walk next node fuel cur = some c ∧ c ∈ cur :: rest ∧
        ((node = next c ∧ node ∈ rest ∧
            IsList (Function.update next c (next (next c))) cur ((cur :: rest).erase node)) ∨
          (node ≠ next c ∧ node ∉ rest)) := by
  intro rest
  induction rest with
  | nil =>
    intro cur fuel hl _ hne _
    have h0 : next cur = 0 := hl.2.2
    refine ⟨cur, ?_, by simp, Or.inr ⟨by rw [h0]; exact hn, by simp⟩⟩
    cases fuel <;> simp [List_remove_walk, h0]
  | cons b rest ih =>
    intro cur fuel hl hnd hne hf
    obtain ⟨_, hcur, hb, hb0, hrest⟩ := hl
    have hnd2 : (b :: rest).Nodup := (List.nodup_cons.mp hnd).2
    have hcur2 : cur ∉ b :: rest := (List.nodup_cons.mp hnd).1
    by_cases hnb : node = b
    · refine ⟨cur, ?_, by simp, Or.inl ⟨by rw [hb, hnb], by simp [hnb], ?_⟩⟩
      · cases fuel <;> simp [List_remove_walk, hb, hnb]
      · have he : (cur :: b :: rest).erase node = cur :: rest := by
          rw [List.erase_cons_tail (by simpa using fun hh => hne hh.symm), hnb,
            List.erase_cons_head]
        rw [he]
        refine ⟨rfl, hcur, ?_⟩
        rw [Function.update_same, hb]
        exact isList_update next cur _ rest _
          (fun hh => hcur2 (List.mem_cons_of_mem _ hh)) hrest
    · cases fuel with
      | zero => simp at hf
      | succ f =>
        have hstep : List_remove_walk next node (f + 1) cur = List_remove_walk next node f b := by
          simp only [List_remove_walk]
          rw [if_pos ⟨by rw [hb]; exact hb0, by rw [hb]; exact hnb⟩, hb]
        obtain ⟨c, hc, hcm, hcase⟩ := ih b f ⟨rfl, hb0, hrest⟩ hnd2 hnb
          (by simpa using hf)
        refine ⟨c, by rw [hstep]; exact hc, List.mem_cons_of_mem _ hcm, ?_⟩
        rcases hcase with ⟨h1, h2, h3⟩ | ⟨h1, h2⟩
        · refine Or.inl ⟨h1, List.mem_cons_of_mem _ h2, ?_⟩
          have hcc : cur ≠ c := fun hh => hcur2 (hh ▸ hcm)
          rw [List.erase_cons_tail (by simpa using fun hh => hne hh.symm)]
          refine ⟨rfl, hcur, ?_⟩
          rw [Function.update_noteq hcc, hb]
          exact h3
        · refine Or.inr ⟨h1, ?_⟩
          intro hmem
          rcases List.mem_cons.mp hmem with hh | hh
          · exact hnb hh
          · exact h2 hh

/-- `List_remove` on an acyclic list of pairwise distinct nodes, with a budget
of as many rounds as the list has nodes: it returns, the list is then the old
one without `node`, and nothing at all is written when `node` is null or not
in the list. -/
theorem List_remove_list (mx : fast_mutex) (m : Links) (node : Nat) (l : List Nat)
    (hl : IsList m.next m.head l) (hnd : l.Nodup) (fuel : Nat) (hf : l.length ≤ fuel) :
    ∃ r, List_remove fuel mx m node = some r ∧ IsList r.2.next r.2.head (l.erase node) ∧
      (node = 0 ∨ node ∉ l → r.2.head = m.head ∧ r.2.next = m.next) ∧
      ∀ p, p ∉ l → r.2.next p = m.next p := by
  by_cases hn : node = 0
  · refine ⟨(mx, m), by simp [List_remove, hn], ?_, fun _ => ⟨rfl, rfl⟩, fun _ _ => rfl⟩
    rw [List.erase_of_not_mem (by rw [hn]; exact isList_nonzero _ l _ hl)]
    exact hl
  · cases l with
    | nil =>
      have h0 : m.head = 0 := hl
      refine ⟨((mx.lock.1).unlock.1, m), by simp [List_remove, hn, h0], ?_,
        fun _ => ⟨rfl, rfl⟩, fun _ _ => rfl⟩
      exact hl
    | cons a rest =>
      obtain ⟨ha, ha0, hrest⟩ := hl
      have hh0 : m.head ≠ 0 := by rw [ha]; exact ha0
      by_cases han : a = node
      · refine ⟨((mx.lock.1).unlock.1, { head := m.next node, next := m.next }), ?_, ?_, ?_,
          fun _ _ => rfl⟩
        · simp [List_remove, hn, hh0, InterlockedCompareExchangePointer, ha, han]
        · rw [han, List.erase_cons_head, ← han]
          exact hrest
        · rintro (h | h)
          · exact absurd h hn
          · exact absurd (by simp [han]) h
      · have hna : node ≠ a := fun hh => han hh.symm
        obtain ⟨c, hc, hcm, hcase⟩ := List_remove_walk_spec m.next node hn rest a fuel
          ⟨rfl, ha0, hrest⟩ hnd hna (by simp only [List.length_cons] at hf; omega)
        have hcas : InterlockedCompareExchangePointer m.head (m.next node) node = (a, a) := by
          simp [InterlockedCompareExchangePointer, ha, han]
        rcases hcase with ⟨h1, h2, h3⟩ | ⟨h1, h2⟩
        · refine ⟨((mx.lock.1).unlock.1,
            { head := a, next := Function.update m.next c (m.next (m.next c)) }), ?_, h3, ?_, ?_⟩
          · simp only [List_remove, if_neg hn, if_pos hh0, hcas, if_pos han, hc, if_pos h1]
          · rintro (h | h)
            · exact absurd h hn
            · exact absurd (List.mem_cons_of_mem _ h2) h
          · intro p hp
            have : p ≠ c := fun hh => hp (hh ▸ hcm)
            simp only
            rw [Function.update_noteq this]
        · refine ⟨((mx.lock.1).unlock.1, { head := a, next := m.next }), ?_, ?_,
            fun _ => ⟨ha.symm, rfl⟩, fun _ _ => rfl⟩
          · simp only [List_remove, if_neg hn, if_pos hh0, hcas, if_pos han, hc, if_neg h1]
          · have hnm : node ∉ a :: rest := by
              intro hmem
              rcases List.mem_cons.mp hmem with hh | hh
              · exact hna hh
              · exact h2 hh
            rw [List.erase_of_not_mem hnm]
            exact ⟨rfl, ha0, hrest⟩

/-- `List_insert` of a non-null node, with no other thread at work: one round
of the loop, after which `head` is the node and its `next` is the old
`head`. -/
theorem List_insert_eq (m : Links) (node : Nat) (hn : node ≠ 0) (fuel : Nat) :
    List_insert (fuel + 1) m node =
      some { head := node, next := Function.update m.next node m.head } := by
  simp [List_insert, List_insert_loop, hn, InterlockedCompareExchangePointer]

/-! ## C12: `List_remove` removes exactly the given node -/

/-- C12: for every acyclic list `l` of pairwise distinct nodes and every
`node`, `List_remove` returns (given as many rounds for its walk as the list
has nodes), and the list is then the old list without `node`, the other nodes
in their order; `head` is the old `node->next` when `node` was the head; and
if `node` is null or not in the list, or the list is empty, `head` and every
`next` member are as before. -/
theorem List_remove_removes (mx : fast_mutex) (m : Links) (node : Nat) (l : List Nat)
    (hl : IsList m.next m.head l) (hnd : l.Nodup) (fuel : Nat) (hf : l.length ≤ fuel) :
    ∃ r, List_remove fuel mx m node = some r ∧
      IsList r.2.next r.2.head (l.filter (fun p => decide (p ≠ node))) ∧
      (node ≠ 0 ∧ m.head = node → r.2.head = m.next node) ∧
      (node = 0 ∨ node ∉ l ∨ l = [] → r.2.head = m.head ∧ r.2.next = m.next) := by
  obtain ⟨r, hr, h1, h2, _⟩ := List_remove_list mx m node l hl hnd fuel hf
  refine ⟨r, hr, ?_, ?_, ?_⟩
  · have : l.erase node = l.filter (fun p => decide (p ≠ node)) := by
      rw [hnd.erase_eq_filter]
      congr 1
      funext p
      by_cases hp : p = node <;> simp [hp]
    rw [← this]
    exact h1
  · rintro ⟨hn, hh⟩
    have hh0 : m.head ≠ 0 := by rw [hh]; exact hn
    have hcas : InterlockedCompareExchangePointer m.head (m.next node) node =
        (m.next node, m.head) := by
      unfold InterlockedCompareExchangePointer
      rw [if_pos hh]
    have : List_remove fuel mx m node =
        some ((mx.lock.1).unlock.1, { head := m.next node, next := m.next }) := by
      unfold List_remove
      rw [if_neg hn]
      simp only [if_pos hh0, hcas, if_neg (not_not.mpr hh)]
    rw [this] at hr
    rw [← Option.some.inj hr]
  · rintro (h | h | h)
    · exact h2 (Or.inl h)
    · exact h2 (Or.inr h)
    · exact h2 (Or.inr (by rw [h]; simp))

/-- Witness of C12: the node 2 is removed from the list 1, 2, 3. -/
theorem List_remove_removes_witness :
    ∃ r, List_remove 3 { lock_counter := 0, win32_obj_id := 9 }
        { head := 1, next := fun p => if p = 1 then 2 else if p = 2 then 3 else 0 } 2 = some r ∧
      IsList r.2.next r.2.head [1, 3] := by
  obtain ⟨r, hr, h1, _⟩ := List_remove_removes { lock_counter := 0, win32_obj_id := 9 }
    { head := 1, next := fun p => if p = 1 then 2 else if p = 2 then 3 else 0 } 2 [1, 2, 3]
    (by decide) (by decide) 3 (by decide)
  exact ⟨r, hr, h1⟩

/-! ## C13: `List_insert` pushes onto the head of the list -/

/-- C13 (as the code behaves): for every list `l` and every non-null `node`
that is not in `l`, `List_insert` (with no other thread at work) returns
after one round of its loop; `head` is then `node`, `node->next` is the old
`head`, no other `next` member is written, and the list is `node` followed by
`l`; `List_remove` of `node` right after gives back exactly `l`, under the old
`head`.  For a null node `List_insert` leaves everything as it is. -/
theorem List_insert_pushes (mx : fast_mutex) (m : Links) (node : Nat) (l : List Nat)
    (hl : IsList m.next m.head l) (hn : node ≠ 0) (hnew : node ∉ l)
    (fuel : Nat) (hf : 1 ≤ fuel) :
    (∃ r, List_insert fuel m node = some r ∧ r.head = node ∧ r.next node = m.head ∧
        (∀ p, p ≠ node → r.next p = m.next p) ∧ IsList r.next r.head (node :: l) ∧
        ∀ fuel2, l.length + 1 ≤ fuel2 →
          ∃ r2, List_remove fuel2 mx r node = some r2 ∧ r2.2.head = m.head ∧
            IsList r2.2.next r2.2.head l) ∧
      ∀ (m0 : Links) (fuel0 : Nat), List_insert fuel0 m0 0 = some m0 := by
  refine ⟨?_, fun m0 fuel0 => by simp [List_insert]⟩
  obtain ⟨f, rfl⟩ : ∃ f, fuel = f + 1 := ⟨fuel - 1, by omega⟩
  have hins : IsList (Function.update m.next node m.head) node (node :: l) :=
    ⟨rfl, hn, by rw [Function.update_same]; exact isList_update m.next node _ l _ hnew hl⟩
  refine ⟨_, List_insert_eq m node hn f, rfl, by simp, ?_, hins, ?_⟩
  · intro p hp
    simp only
    rw [Function.update_noteq hp]
  · intro fuel2 hf2
    obtain ⟨r2, hr2, h1, _⟩ := List_remove_list mx
      { head := node, next := Function.update m.next node m.head } node (node :: l) hins
      (List.nodup_cons.mpr ⟨hnew, isList_nodup _ l _ hl⟩) fuel2 (by simpa using hf2)
    rw [List.erase_cons_head] at h1
    exact ⟨r2, hr2, isList_head_eq _ _ l _ _ h1 hl, h1⟩

/-- Witness of C13: the node 4 is inserted before the list 1, 2, 3. -/
theorem List_insert_pushes_witness :
    ∃ r, List_insert 1
        { head := 1, next := fun p => if p = 1 then 2 else if p = 2 then 3 else 0 } 4 = some r ∧
      r.head = 4 ∧ r.next 4 = 1 ∧ IsList r.next r.head [4, 1, 2, 3] := by
  obtain ⟨⟨r, hr, h1, h2, _, h4, _⟩, _⟩ := List_insert_pushes
    { lock_counter := 0, win32_obj_id := 9 }
    { head := 1, next := fun p => if p = 1 then 2 else if p = 2 then 3 else 0 } 4 [1, 2, 3]
    (by decide) (by decide) (by decide) 1 (by decide)
  exact ⟨r, hr, h1, h2, h4⟩

/-- C13 (counterexample): the list holds the one node 5, and `List_insert`
is called with the node 5 again.  `head` is 5 and `5->next` is the old `head`,
which is 5 itself: the nodes from `head` on are not 5 followed by the old list
(they never reach the null pointer), and `List_remove` of 5 right after leaves
`head = 5` with `5->next = 5`, not the old list. -/
theorem List_insert_twice :
    IsList (fun _ => 0) 5 [5] ∧
      List_insert 1 { head := 5, next := fun _ => 0 } 5 =
        some { head := 5, next := Function.update (fun _ => 0) 5 5 } ∧
      Function.update (fun _ => (0 : Nat)) 5 5 5 = 5 ∧
      ¬ IsList (Function.update (fun _ => 0) 5 5) 5 [5, 5] ∧
      (List_remove 1 { lock_counter := 0, win32_obj_id := 9 }
          { head := 5, next := Function.update (fun _ => 0) 5 5 } 5).map
        (fun r => (r.2.head, r.2.next 5, decide (IsList r.2.next r.2.head [5]))) =
        some (5, 5, false) := by
  refine ⟨by decide, List_insert_eq _ 5 (by decide) 0, by decide, by decide, by decide⟩

/-! ## C11: mutual exclusion of `fast_mutex` -/

/-- The count of `z` after thread `i` has moved from `x` to `y`. -/
theorem count_set_add (l : List TState) (i : Nat) (x y z : TState) (h : l[i]? = some x) :
    (l.set i y).count z + (if x = z then 1 else 0) = l.count z + (if y = z then 1 else 0) := by
  obtain ⟨hi, hx⟩ := List.getElem?_eq_some.mp h
  rw [List.count_set y z l i hi, hx]
  have hpos : x = z → 1 ≤ l.count z := by
    intro hxz
    apply List.count_pos_iff.mpr
    rw [← hxz, ← hx]
    exact List.getElem_mem hi
  simp only [beq_iff_eq]
  by_cases hxz : x = z
  · have := hpos hxz
    simp only [hxz, if_true]
    split_ifs <;> omega
  · simp only [hxz, if_false]
    split_ifs <;> omega

theorem interlockedIncrement_eq (v : Nat) (h : v + 1 < 2 ^ UNSIGNED_BITS) :
    InterlockedIncrement v = v + 1 := by
  unfold InterlockedIncrement
  exact Nat.mod_eq_of_lt h

theorem interlockedDecrement_eq (v : Nat) (h1 : 1 ≤ v) (h : v < 2 ^ UNSIGNED_BITS) :
    InterlockedDecrement v = v - 1 := by
  unfold InterlockedDecrement
  have : v + 2 ^ UNSIGNED_BITS - 1 = (v - 1) + 2 ^ UNSIGNED_BITS := by omega
  rw [this, Nat.add_mod_right]
  exact Nat.mod_eq_of_lt (by omega)

/-- The four counts after thread `i` has moved from `x` to `y`. -/
theorem counts_set (l : List TState) (i : Nat) (x y : TState) (h : l[i]? = some x) :
    ((l.set i y).count TState.idle + (if x = TState.idle then 1 else 0) =
        l.count TState.idle + (if y = TState.idle then 1 else 0)) ∧
      ((l.set i y).count TState.waiting + (if x = TState.waiting then 1 else 0) =
        l.count TState.waiting + (if y = TState.waiting then 1 else 0)) ∧
      ((l.set i y).count TState.holding + (if x = TState.holding then 1 else 0) =
        l.count TState.holding + (if y = TState.holding then 1 else 0)) ∧
      ((l.set i y).count TState.signalling + (if x = TState.signalling then 1 else 0) =
        l.count TState.signalling + (if y = TState.signalling then 1 else 0)) ∧
      1 ≤ l.count x :=
  ⟨count_set_add l i x y _ h, count_set_add l i x y _ h, count_set_add l i x y _ h,
    count_set_add l i x y _ h, by
      obtain ⟨hi, hx⟩ := List.getElem?_eq_some.mp h
      apply List.count_pos_iff.mpr
      rw [← hx]
      exact List.getElem_mem hi⟩

theorem lock_cases (m : fast_mutex) (h : m.lock_counter + 1 < 2 ^ UNSIGNED_BITS) :
    m.lock.1.lock_counter = m.lock_counter + 1 ∧ (m.lock.2 = true ↔ m.lock_counter ≠ 0) := by
  simp [fast_mutex.lock, interlockedIncrement_eq _ h]

theorem unlock_cases (m : fast_mutex) (h1 : 1 ≤ m.lock_counter)
    (h : m.lock_counter < 2 ^ UNSIGNED_BITS) :
    m.unlock.1.lock_counter = m.lock_counter - 1 ∧ (m.unlock.2 = true ↔ m.lock_counter ≠ 1) := by
  simp only [fast_mutex.unlock, interlockedDecrement_eq _ h1 h, ne_eq, decide_eq_true_eq,
    true_and]
  omega

/-- Every atomic step keeps the invariant. -/
theorem step_inv (s s1 : MutexSys) (a : Act) (hinv : s.Inv) (h : s.step a = some s1) :
    s1.Inv := by
  obtain ⟨hlen, hsum, hcnt, hexc, hev, hsig⟩ := hinv
  cases a with
  | lock i =>
    simp only [MutexSys.step] at h
    by_cases hi : s.threads[i]? = some TState.idle
    swap
    · rw [if_neg hi] at h
      cases h
    rw [if_pos hi] at h
    have h1 := Option.some.inj h
    subst h1
    obtain ⟨hc, hw⟩ := lock_cases s.mx (by
      have := (counts_set s.threads i TState.idle TState.idle hi).2.2.2.2
      omega)
    by_cases hl : s.mx.lock.2 = true
    · obtain ⟨cI, cW, cH, cS, _⟩ := counts_set s.threads i TState.idle TState.waiting hi
      simp only [reduceCtorEq, if_true, if_false] at cI cW cH cS
      have h0 := hw.mp hl
      simp only [MutexSys.Inv, hl, if_true, List.length_set, hc]
      refine ⟨hlen, by omega, by omega, by omega, fun he => ?_, fun hs => ?_⟩
      · have := hev he
        omega
      · omega
    · obtain ⟨cI, cW, cH, cS, _⟩ := counts_set s.threads i TState.idle TState.holding hi
      simp only [reduceCtorEq, if_true, if_false] at cI cW cH cS
      have h0 : s.mx.lock_counter = 0 := by
        by_contra hne
        exact hl (hw.mpr hne)
      simp only [MutexSys.Inv, hl, Bool.false_eq_true, if_false, List.length_set, hc]
      refine ⟨hlen, by omega, by omega, by omega, fun he => ?_, fun hs => ?_⟩
      · have := hev he
        omega
      · have := hsig (by omega)
        omega
  | wake i =>
    simp only [MutexSys.step, MutexSys.consume_event] at h
    split_ifs at h with hi
    have h1 := Option.some.inj h
    subst h1
    obtain ⟨cI, cW, cH, cS, _⟩ := counts_set s.threads i TState.waiting TState.holding hi.1
    simp only [reduceCtorEq, if_true, if_false] at cI cW cH cS
    have := hev hi.2
    simp only [MutexSys.Inv, List.length_set]
    refine ⟨hlen, by omega, by omega, by omega, fun he => by simp at he, fun hs => by omega⟩
  | unlock i =>
    simp only [MutexSys.step] at h
    split_ifs at h with hi
    have h1 := Option.some.inj h
    subst h1
    obtain ⟨cI, cW, cH, cS, hpos⟩ := counts_set s.threads i TState.holding TState.idle hi
    simp only [reduceCtorEq, if_true, if_false] at cI cW cH cS
    obtain ⟨hc, hw⟩ := unlock_cases s.mx (by omega) (by omega)
    have hev0 : s.event = false := by
      cases hh : s.event with
      | false => rfl
      | true =>
        have := hev hh
        omega
    simp only [MutexSys.Inv, List.length_set, hc, hev0, Bool.false_or]
    refine ⟨hlen, by omega, by omega, by omega, fun he => ?_, fun hs => by omega⟩
    have := hw.mp he
    omega
  | unlock_dec i =>
    simp only [MutexSys.step] at h
    by_cases hi : s.threads[i]? = some TState.holding
    swap
    · rw [if_neg hi] at h
      cases h
    rw [if_pos hi] at h
    have h1 := Option.some.inj h
    subst h1
    obtain ⟨hc, hw⟩ := unlock_cases s.mx (by
      have := (counts_set s.threads i TState.holding TState.idle hi).2.2.2.2
      omega) (by omega)
    have hev0 : s.event = false := by
      cases hh : s.event with
      | false => rfl
      | true =>
        have := hev hh
        have := (counts_set s.threads i TState.holding TState.idle hi).2.2.2.2
        omega
    by_cases hl : s.mx.unlock.2 = true
    · obtain ⟨cI, cW, cH, cS, hpos⟩ := counts_set s.threads i TState.holding TState.signalling hi
      simp only [reduceCtorEq, if_true, if_false] at cI cW cH cS
      have h0 := hw.mp hl
      simp only [MutexSys.Inv, hl, if_true, List.length_set, hc, hev0]
      refine ⟨hlen, by omega, by omega, by omega, fun he => by simp at he, fun hs => by omega⟩
    · obtain ⟨cI, cW, cH, cS, hpos⟩ := counts_set s.threads i TState.holding TState.idle hi
      simp only [reduceCtorEq, if_true, if_false] at cI cW cH cS
      have h0 : s.mx.lock_counter = 1 := by
        by_contra hne
        exact hl (hw.mpr hne)
      simp only [MutexSys.Inv, hl, Bool.false_eq_true, if_false, List.length_set, hc, hev0]
      refine ⟨hlen, by omega, by omega, by omega, fun he => by simp at he, fun hs => by omega⟩
  | set_event i =>
    simp only [MutexSys.step] at h
    split_ifs at h with hi
    have h1 := Option.some.inj h
    subst h1
    obtain ⟨cI, cW, cH, cS, hpos⟩ := counts_set s.threads i TState.signalling TState.idle hi
    simp only [reduceCtorEq, if_true, if_false] at cI cW cH cS
    have := hsig hpos
    simp only [MutexSys.Inv, List.length_set]
    refine ⟨hlen, by omega, by omega, by omega, fun _ => by omega, fun hs => by omega⟩

theorem run_inv (acts : List Act) :
    ∀ (s s1 : MutexSys), s.Inv → s.run acts = some s1 → s1.Inv := by
  induction acts with
  | nil =>
    intro s s1 hinv h
    simp only [MutexSys.run] at h
    rw [← Option.some.inj h]
    exact hinv
  | cons a acts ih =>
    intro s s1 hinv h
    simp only [MutexSys.run] at h
    split at h
    · cases h
    · next s2 hs2 => exact ih s2 s1 (step_inv s s2 a hinv hs2) h

theorem init_inv (n : Nat) (hn : n < 2 ^ UNSIGNED_BITS) (win32_obj_id : HANDLE) :
    (MutexSys.init n win32_obj_id).Inv := by
  simp [MutexSys.Inv, MutexSys.init, hn, List.count_replicate]

/-- C11: take any number of threads below `2 ^ 32` and let them take the
atomic steps of `fast_mutex` in any order (the increment of `lock`, after
which the thread is holding if the result is 1 and waiting otherwise; a
waiting thread consuming the set event and becoming holding; the `unlock` of
a holding thread, decrement and then `SetEvent` if the result is not 0, as
one step or as two).  In every state reached from `lock_counter = 0`, event
clear, all threads idle, at most one thread is holding, and `lock_counter` is
the number of waiting plus holding threads. -/
theorem fast_mutex_exclusion (n : Nat) (hn : n < 2 ^ UNSIGNED_BITS) (win32_obj_id : HANDLE)
    (acts : List Act) (s : MutexSys)
    (hrun : (MutexSys.init n win32_obj_id).run acts = some s) :
    s.threads.count TState.holding ≤ 1 ∧
      s.mx.lock_counter =
        s.threads.count TState.waiting + s.threads.count TState.holding := by
  obtain ⟨_, _, h3, h4, _, _⟩ := run_inv acts _ s (init_inv n hn win32_obj_id) hrun
  exact ⟨by omega, h3⟩

/-- Witness of C11: three threads contend; thread 0 gets the mutex, hands it
to thread 2, which hands it to thread 1 while thread 0 comes back. -/
theorem fast_mutex_exclusion_witness :
    (MutexSys.init 3 9).run
        [Act.lock 0, Act.lock 1, Act.lock 2, Act.unlock 0, Act.wake 2, Act.unlock_dec 2,
          Act.lock 0, Act.set_event 2, Act.wake 1] =
      some { mx := { lock_counter := 2, win32_obj_id := 9 }, event := false,
             threads := [TState.waiting, TState.holding, TState.idle] } ∧
    List.count TState.holding [TState.waiting, TState.holding, TState.idle] ≤ 1 ∧
    (2 : Nat) = List.count TState.waiting [TState.waiting, TState.holding, TState.idle] +
      List.count TState.holding [TState.waiting, TState.holding, TState.idle] :=
  ⟨by decide,
    fast_mutex_exclusion 3 (by decide) 9
      [Act.lock 0, Act.lock 1, Act.lock 2, Act.unlock 0, Act.wake 2, Act.unlock_dec 2,
        Act.lock 0, Act.set_event 2, Act.wake 1]
      { mx := { lock_counter := 2, win32_obj_id := 9 }, event := false,
        threads := [TState.waiting, TState.holding, TState.idle] } (by decide)⟩

end Thread
